import Mathlib

/-!
# Verification of the fiano firmware-tree codec and assembler

A shallow embedding of the repository's firmware-volume parser
(`uefi/firmwarevolume.go`) and of the `Assemble` visitor
(`integration/utk_test.go`, package `visitors`), together with the region
arithmetic recorded by `pkg/uefi/region_test.go`.

Bytes are modelled as `Nat` values (each `< 256` where it matters), byte
buffers as `List Nat`.  Go slices are modelled with `cap = len`: a slice
expression past the length is a run-time panic.  A Go function that can
return an error or panic is modelled with `GoResult`.
-/

namespace Fiano

/-- Little-endian read of `n` bytes of `data` starting at `off`
(out-of-range bytes read as 0; callers perform the Go length checks
explicitly before reading). -/
def readLE (data : List Nat) (off n : Nat) : Nat :=
  match n with
  | 0 => 0
  | m + 1 => data.getD off 0 + 256 * readLE data (off + 1) m

/-- Little-endian write of the `n`-byte value `v` into `buf` at `off`
(writes past the end of `buf` are dropped by `List.set`; `putLE` adds the
Go bounds check). -/
def writeLE (buf : List Nat) (off n v : Nat) : List Nat :=
  match n with
  | 0 => buf
  | m + 1 => writeLE (buf.set off (v % 256)) (off + 1) m (v / 256)

/-- `binary.LittleEndian.PutUintNN(buf[off:], v)`: panics (`none`) when
fewer than `n` bytes are available at `off`. -/
def putLE (buf : List Nat) (off n v : Nat) : Option (List Nat) :=
  if off + n ≤ buf.length then some (writeLE buf off n v) else none

/-- Outcome of running a Go function: a value, a returned `error`, or a
run-time panic. -/
inductive GoResult (α : Type) where
  | ok (val : α)
  | err
  | panic
deriving Repr, DecidableEq

/-! ## `uefi/firmwarevolume.go` -/

/-- The 4 ASCII bytes of the firmware-volume signature `_FVH`. -/
def fvhSignature : List Nat := [0x5F, 0x46, 0x56, 0x48]

/-- The scanning loop of `FindFirmwareVolumeOffset`: from `offset` in steps
of 8 while `offset < len(data)`, compare `data[offset:offset+4]` with
`_FVH`.  The slice expression panics (`none`) when `offset+4 > len(data)`.
`fuel` bounds the recursion; `data.length` is always enough. -/
def fvScan (data : List Nat) (offset : Nat) : Nat → Option Int
  | 0 => some (-1)
  | fuel + 1 =>
    if offset < data.length then
      if data.length < offset + 4 then none
      else if (data.drop offset).take 4 = fvhSignature then some ((offset : Int) - 40)
      else fvScan data (offset + 8) fuel
    else some (-1)

/-- `FindFirmwareVolumeOffset` from `uefi/firmwarevolume.go`: returns `-1`
for inputs shorter than 32 bytes, otherwise scans from offset 32 in steps
of 8 for `_FVH` and returns `offset - 40` on a hit.  `none` models the
panic of the slice expression `data[offset:offset+4]`. -/
def FindFirmwareVolumeOffset (data : List Nat) : Option Int :=
  if data.length < 32 then some (-1) else fvScan data 32 data.length

/-- The fixed fields of a firmware volume header
(`FirmwareVolumeFixedHeader`): 16 reserved bytes, then the filesystem
GUID, `Length:u64`, `Signature:u32`, `Attributes:u32`, `HeaderLen:u16`,
`Checksum:u16`, `ExtHeaderOffset:u16`, `Reserved:u8`, `Revision:u8`. -/
structure FirmwareVolumeFixedHeader where
  fileSystemGUID : List Nat
  length : Nat
  signature : Nat
  attributes : Nat
  headerLen : Nat
  checksum : Nat
  extHeaderOffset : Nat
  reserved : Nat
  revision : Nat
deriving Repr, DecidableEq

/-- A parsed firmware volume: fixed header, block map, optional extended
header (name GUID bytes and `ExtHeaderSize`), and the backing buffer. -/
structure FirmwareVolume where
  header : FirmwareVolumeFixedHeader
  blocks : List (Nat × Nat)
  extHeader : Option (List Nat × Nat)
  buf : List Nat
deriving Repr, DecidableEq

/-- `binary.Read` of the 56-byte fixed header from the front of `data`
(the caller has already checked `len(data) >= 64`). -/
def parseFixedHeader (data : List Nat) : FirmwareVolumeFixedHeader :=
  { fileSystemGUID := (data.drop 16).take 16
    length := readLE data 32 8
    signature := readLE data 40 4
    attributes := readLE data 44 4
    headerLen := readLE data 48 2
    checksum := readLE data 50 2
    extHeaderOffset := readLE data 52 2
    reserved := readLE data 54 1
    revision := readLE data 55 1 }

/-- The block-map loop of `NewFirmwareVolume`: read `(Count:u32, Size:u32)`
pairs from `off` until the `(0,0)` terminator; `binary.Read` returns an
error when fewer than 8 bytes remain.  `fuel` bounds the recursion;
`data.length` is always enough. -/
def readBlocks (data : List Nat) (off : Nat) : Nat → GoResult (List (Nat × Nat))
  | 0 => .err
  | fuel + 1 =>
    if data.length < off + 8 then .err
    else
      let count := readLE data off 4
      let size := readLE data (off + 4) 4
      if count = 0 ∧ size = 0 then .ok []
      else
        match readBlocks data (off + 8) fuel with
        | .ok bs => .ok ((count, size) :: bs)
        | .err => .err
        | .panic => .panic

/-- The tail of `NewFirmwareVolume`: slice `fv.buf = data[:fv.Length]`.
There is no bound check in the source, so `Length > len(data)` is a
run-time panic. -/
def finishFV (data : List Nat) (hdr : FirmwareVolumeFixedHeader)
    (blocks : List (Nat × Nat)) (ext : Option (List Nat × Nat)) :
    GoResult FirmwareVolume :=
  if hdr.length ≤ data.length then .ok ⟨hdr, blocks, ext, data.take hdr.length⟩
  else .panic

/-- The extended-header phase of `NewFirmwareVolume`: parse the extended
header when `ExtHeaderOffset != 0` and
`uint64(ExtHeaderOffset) < Length - 20` computed in wrapping `uint64`
arithmetic, then finish.  `data[ExtHeaderOffset:]` panics when the offset
exceeds `len(data)`; the 20-byte `binary.Read` of the extended header
returns an error when it runs past the end. -/
def fvExtPhase (data : List Nat) (hdr : FirmwareVolumeFixedHeader)
    (blocks : List (Nat × Nat)) : GoResult FirmwareVolume :=
  if hdr.extHeaderOffset ≠ 0 ∧
      hdr.extHeaderOffset < (hdr.length + 2 ^ 64 - 20) % 2 ^ 64 then
    if data.length < hdr.extHeaderOffset then .panic
    else if data.length < hdr.extHeaderOffset + 20 then .err
    else
      finishFV data hdr blocks
        (some ((data.drop hdr.extHeaderOffset).take 16,
               readLE data (hdr.extHeaderOffset + 16) 4))
  else finishFV data hdr blocks none

/-- `NewFirmwareVolume` from `uefi/firmwarevolume.go`: require
`len(data) >= 64`; read the fixed header and the block map; parse the
extended header per `fvExtPhase`; finally slice `buf = data[:Length]`. -/
def NewFirmwareVolume (data : List Nat) : GoResult FirmwareVolume :=
  if data.length < 64 then .err
  else
    match readBlocks data 56 data.length with
    | .err => .err
    | .panic => .panic
    | .ok blocks => fvExtPhase data (parseFixedHeader data) blocks

/-- Project the parsed volume out of an `ok` result. -/
def fvOk : GoResult FirmwareVolume → FirmwareVolume
  | .ok v => v
  | _ => ⟨⟨[], 0, 0, 0, 0, 0, 0, 0, 0⟩, [], none, []⟩

/-! ## Support kernels

The alignment/checksum helpers and the file-level accessors used by the
`Assemble` visitor live in `pkg/uefi`, which is not part of this source
tree; they are modelled from the spec (§4.1, §3, §4.3). -/

/-- Modelled from the spec: `pkg/uefi.Align` — the smallest `y ≥ x` with
`y mod a = 0` (callers only pass `a ≥ 1`). -/
def Align (x a : Nat) : Nat := if x % a = 0 then x else x + (a - x % a)

/-- `align4`. -/
def Align4 (x : Nat) : Nat := Align x 4

/-- `align8`. -/
def Align8 (x : Nat) : Nat := Align x 8

/-- Split a byte list into 16-bit little-endian words (an odd trailing
byte is never consumed by callers, which check evenness first). -/
def words16LE : List Nat → List Nat
  | a :: b :: rest => (a + 256 * b) :: words16LE rest
  | _ => []

/-- The plain 16-bit little-endian word sum of a byte list. -/
def wordSum16 (buf : List Nat) : Nat := (words16LE buf).sum

/-- Modelled from the spec: `pkg/uefi.Checksum16` — the 16-bit
little-endian word sum of the buffer; fails when the length is odd. -/
def Checksum16 (buf : List Nat) : Option Nat :=
  if buf.length % 2 = 1 then none else some (wordSum16 buf % 65536)

/-- Modelled from the spec: `pkg/uefi.FileHeaderMinLength` — the fixed
file header is 24 bytes. -/
def FileHeaderMinLength : Nat := 24

/-- Modelled from the spec: the file data-alignment enumeration decoded
from the file header `Attributes` — bases 1, 16, 128, 512, 1 KiB, 4 KiB,
32 KiB, 64 KiB. -/
def alignmentBases : List Nat := [1, 16, 128, 512, 1024, 4096, 32768, 65536]

/-- Modelled from the spec: `FileAttribute.GetAlignment` — look the
decoded enumeration index up in `alignmentBases`. -/
def GetAlignment (idx : Fin 8) : Nat := alignmentBases.getD idx 1

/-- A `File` node as the `Assemble` visitor's firmware-volume case sees
it: its (already reassembled) buffer, the decoded data-alignment index
from its header `Attributes`, and whether the large-file extended header
is present (header length 32 instead of 24). -/
structure AsmFile where
  buf : List Nat
  alignIdx : Fin 8
  extHdr : Bool
deriving Repr, DecidableEq

/-- Modelled from the spec: `File.HeaderLen()` — 24 bytes, or 32 with the
8-byte extended size field. -/
def AsmFile.headerLen (f : AsmFile) : Nat := if f.extHdr then 32 else 24

/-- Modelled from the spec: `pkg/uefi.CreatePadFile` — a pad file of
total length `n`: 24-byte header (zero UUID and integrity check, type
`0xF0`, 24-bit size `n`, state `0x07 XOR polarity`) and an erase-polarity
body.  Fails when `n` cannot hold the header. -/
def CreatePadFile (pol n : Nat) : Option (List Nat) :=
  if n < FileHeaderMinLength then none
  else some (List.replicate 16 0 ++ [0, 0] ++ [0xF0] ++ [0] ++
    [n % 256, n / 256 % 256, n / 65536 % 256] ++ [Nat.xor 7 pol] ++
    List.replicate (n - 24) pol)

/-! ## The `Assemble` visitor, `*uefi.FirmwareVolume` case
(`integration/utk_test.go`, package `visitors`) -/

/-- A file or pad file placed at an offset of the volume. -/
structure Placed where
  offset : Nat
  buf : List Nat
  isPad : Bool
deriving Repr, DecidableEq

/-- The aligned start for a file whose header sits at `aligned` with
header length `hl` and data alignment `a`: the data must be `a`-aligned
(`fileDataOffset = Align (aligned + hl) a`), and a tentative gap in
`[8, FileHeaderMinLength)` is bumped once via
`Align (fileDataOffset + 1) a`; the file starts at
`fileDataOffset - hl`. -/
def newOffsetFor (aligned hl a : Nat) : Nat :=
  (if 8 ≤ Align (aligned + hl) a - hl - aligned ∧
      Align (aligned + hl) a - hl - aligned < FileHeaderMinLength
   then Align (Align (aligned + hl) a + 1) a
   else Align (aligned + hl) a) - hl

/-- One iteration of the file-placement loop of `Assemble.Visit`: 8-align
the running offset; when the file declares a data alignment `a > 1`,
compute `newOffsetFor` and cover any gap with a pad file.  `none` models
`log.Fatal` on an empty file buffer and the `CreatePadFile` error on a
pad too small to hold its header. -/
def placeOne (pol fileOffset : Nat) (f : AsmFile) : Option (List Placed × Nat) :=
  if f.buf.length = 0 then none
  else
    if GetAlignment f.alignIdx = 1 then
      some ([⟨Align8 fileOffset, f.buf, false⟩], Align8 fileOffset + f.buf.length)
    else
      if newOffsetFor (Align8 fileOffset) f.headerLen (GetAlignment f.alignIdx) ≠
          Align8 fileOffset then
        match CreatePadFile pol
            (newOffsetFor (Align8 fileOffset) f.headerLen (GetAlignment f.alignIdx) -
              Align8 fileOffset) with
        | none => none
        | some pbuf =>
          some ([⟨Align8 fileOffset, pbuf, true⟩,
                 ⟨newOffsetFor (Align8 fileOffset) f.headerLen (GetAlignment f.alignIdx),
                  f.buf, false⟩],
                newOffsetFor (Align8 fileOffset) f.headerLen (GetAlignment f.alignIdx) +
                  f.buf.length)
      else some ([⟨Align8 fileOffset, f.buf, false⟩], Align8 fileOffset + f.buf.length)

/-- The file-placement loop: thread the running offset through
`placeOne` over the volume's files. -/
def placeFiles (pol : Nat) : Nat → List AsmFile → Option (List Placed × Nat)
  | off, [] => some ([], off)
  | off, f :: fs =>
    match placeOne pol off f with
    | none => none
    | some (ps, off') =>
      match placeFiles pol off' fs with
      | none => none
      | some (rest, fin) => some (ps ++ rest, fin)

/-- Modelled from the spec: `FirmwareVolume.InsertFile` — place `data` at
`off` in the volume buffer, filling the hole up to `off` with the erase
polarity (§4.3: holes inside FVs use erase polarity).  The assembler only
ever inserts at or past the current end of the buffer. -/
def insertAt (pol : Nat) (buf : List Nat) (off : Nat) (data : List Nat) : List Nat :=
  (buf ++ List.replicate (off - buf.length) pol).take off ++ data

/-- Apply the placements to the volume buffer in order. -/
def renderPlaced (pol : Nat) (base : List Nat) (placed : List Placed) : List Nat :=
  placed.foldl (fun b p => insertAt pol b p.offset p.buf) base

/-- The resize step of the firmware-volume case: when the used length
exceeds the declared `Length`, round `Length` up to a multiple of
`Blocks[0].Size` (error on a zero block size) and recompute
`Blocks[0].Count` (a `uint32`).  `Blocks[0]` on an empty block list is a
run-time panic. -/
def resizeFV (flen : Nat) (blocks : List (Nat × Nat)) (newLen : Nat) :
    Option (Nat × List (Nat × Nat)) :=
  match blocks with
  | [] => none
  | (c, s) :: rest =>
    if flen < newLen then
      if s = 0 then none
      else some (Align newLen s, (Align newLen s / s % 2 ^ 32, s) :: rest)
    else some (flen, (c, s) :: rest)

/-- When the declared length exceeds the used length, fill the tail with
erase polarity. -/
def fvTailPad (pol flen : Nat) (buf : List Nat) : List Nat :=
  if buf.length < flen then buf ++ List.replicate (flen - buf.length) pol else buf

/-- The header-patching tail of the firmware-volume case: write `Length`
at offset 32 and `Blocks[0].Count` at 56, zero the 16-bit checksum at 50,
checksum `buf[:HeaderLen]` and store its two's-complement negation at 50.
`none` models both the `Checksum16` error on an odd `HeaderLen` and the
panic of `buf[:HeaderLen]` past the end. -/
def patchFVHeader (buf : List Nat) (headerLen flen count : Nat) : Option (List Nat) :=
  match putLE buf 32 8 (flen % 2 ^ 64) with
  | none => none
  | some b1 =>
    match putLE b1 56 4 (count % 2 ^ 32) with
    | none => none
    | some b2 =>
      match putLE b2 50 2 0 with
      | none => none
      | some b3 =>
        if headerLen ≤ b3.length then
          match Checksum16 (b3.take headerLen) with
          | none => none
          | some sum => putLE b3 50 2 ((65536 - sum) % 65536)
        else none

/-- A `FirmwareVolume` node as the `Assemble` visitor sees it: declared
`Length`, computed `DataOffset`, header length, derived erase polarity,
block map, file children, and the backing buffer (the header bytes). -/
structure AsmFV where
  length : Nat
  dataOffset : Nat
  headerLen : Nat
  polarity : Nat
  blocks : List (Nat × Nat)
  files : List AsmFile
  buf : List Nat
deriving Repr, DecidableEq

/-- The `*uefi.FirmwareVolume` case of `Assemble.Visit`: volumes without
files are left untouched; otherwise require the buffer not to exceed the
declared `Length` and to be exactly `DataOffset` long, place the files,
resize, pad the tail with erase polarity, and patch the header. -/
def assembleFV (fv : AsmFV) : Option (List Nat) :=
  if fv.files = [] then some fv.buf
  else if fv.length < fv.buf.length then none
  else if fv.dataOffset ≠ fv.buf.length then none
  else
    match placeFiles fv.polarity fv.dataOffset fv.files with
    | none => none
    | some (placed, _) =>
      match resizeFV fv.length fv.blocks (renderPlaced fv.polarity fv.buf placed).length with
      | none => none
      | some (flen, blocks) =>
        patchFVHeader (fvTailPad fv.polarity flen (renderPlaced fv.polarity fv.buf placed))
          fv.headerLen flen (blocks.headD (0, 0)).1

/-- The hole sizes left between consecutive placed items, starting from
`prev` (the data start, resp. the end of the previous item). -/
def gapsList : Nat → List Placed → List Nat
  | _, [] => []
  | prev, p :: ps => (p.offset - prev) :: gapsList (p.offset + p.buf.length) ps

/-- No hole between consecutive placed items has a size in
`[8, FileHeaderMinLength)`. -/
def noSmallGaps (off : Nat) (placed : List Placed) : Bool :=
  (gapsList off placed).all fun g => !(decide (8 ≤ g) && decide (g < FileHeaderMinLength))

/-- Every placed pad file is immediately followed by a non-pad file that
starts exactly where the pad ends, and is large enough to hold a file
header; no pad is last. -/
def padsTight : List Placed → Bool
  | [] => true
  | [p] => !p.isPad
  | p :: q :: ps =>
    (!p.isPad || (decide (p.offset + p.buf.length = q.offset) && !q.isPad &&
                  decide (FileHeaderMinLength ≤ p.buf.length))) && padsTight (q :: ps)

/-! ### Concrete assembler inputs used below

`cexC2fv` has a (structurally meaningless but accepted) `HeaderLen = 2`
and a first header word of 1.  `wfvC2` is the same volume with the
realistic `HeaderLen = 56`.  `wfilesC3` forces the pad-file path: after a
16-byte file the second file's 16-byte data alignment produces a
tentative gap of 8, which is bumped to a 24-byte pad.  `cexC10fv`
declares `Length = 32`, smaller than its 64-byte buffer. -/

def cexC2fv : AsmFV :=
  { length := 64, dataOffset := 64, headerLen := 2, polarity := 255,
    blocks := [(1, 64)], files := [⟨List.replicate 8 170, 0, false⟩],
    buf := 1 :: List.replicate 63 0 }

def wfvC2 : AsmFV :=
  { length := 64, dataOffset := 64, headerLen := 56, polarity := 255,
    blocks := [(1, 64)], files := [⟨List.replicate 8 170, 0, false⟩],
    buf := List.replicate 64 0 }

def wfilesC3 : List AsmFile :=
  [⟨List.replicate 16 1, 0, false⟩, ⟨List.replicate 50 2, 1, false⟩]

def wplacedC3 : List Placed := ((placeFiles 255 64 wfilesC3).getD ([], 0)).1

def wfinC3 : Nat := ((placeFiles 255 64 wfilesC3).getD ([], 0)).2

def cexC10fv : AsmFV :=
  { length := 32, dataOffset := 64, headerLen := 56, polarity := 255,
    blocks := [(1, 64)], files := [⟨List.replicate 8 170, 0, false⟩],
    buf := List.replicate 64 0 }

/-! ## Child concatenation in the `*uefi.File` and `*uefi.Section` cases -/

/-- The child-concatenation loop of the `*uefi.File` and `*uefi.Section`
cases of `Assemble.Visit`: before appending each child buffer, extend the
output with `0x00` bytes until `dLen` is 4-byte aligned (the source
appends the `0x00` bytes one by one in a counted loop; this recursion
produces the same list). -/
def sectionConcat : Nat → List (List Nat) → List Nat
  | _, [] => []
  | dLen, s :: ss =>
    List.replicate (Align4 dLen - dLen) 0 ++
      (s ++ sectionConcat (Align4 dLen + s.length) ss)

/-- The offset (`Align4 dLen`) at which each concatenated child is
placed. -/
def sectionOffsets : Nat → List (List Nat) → List Nat
  | _, [] => []
  | dLen, s :: ss => Align4 dLen :: sectionOffsets (Align4 dLen + s.length) ss

/-! ## Regions (`pkg/uefi/region_test.go`)

Only the test vectors are in this source tree; the `Region` type and its
three helpers are modelled from the spec. -/

/-- Modelled from the spec: `pkg/uefi.Region` — a pair `(Base, Limit)` of
4 KiB page indices from the flash-descriptor region table. -/
structure Region where
  base : Nat
  limit : Nat
deriving Repr, DecidableEq

/-- Modelled from the spec: `Region.Valid` — `Limit ≥ Base ∧ Limit ≠ 0`. -/
def Region.Valid (r : Region) : Bool :=
  decide (r.base ≤ r.limit) && decide (r.limit ≠ 0)

/-- Modelled from the spec: `Region.BaseOffset = Base << 12`. -/
def Region.BaseOffset (r : Region) : Nat := r.base * 4096

/-- Modelled from the spec: `Region.EndOffset = (Limit + 1) << 12`. -/
def Region.EndOffset (r : Region) : Nat := (r.limit + 1) * 4096

/-- The test vectors of `pkg/uefi/region_test.go` (`regionTestcases`):
input region, expected validity, base offset, end offset. -/
def regionTestcases : List (Region × Bool × Nat × Nat) :=
  [(⟨0, 0⟩, false, 0, 0x1000),
   (⟨1, 0⟩, false, 0x1000, 0x1000),
   (⟨1, 1⟩, true, 0x1000, 0x2000),
   (⟨100, 200⟩, true, 0x64000, 0xC9000),
   (⟨4, 0xFFFF⟩, true, 0x4000, 0x10000000)]

/-! ## The ambient erase polarity across the `Assemble` traversal

The data model is modelled from the spec (§3): sections encapsulate only
inner sections, files hold sections, firmware volumes hold files; the
only state-relevant actions of `Assemble.Visit` are the polarity
assignment on entering a volume (before `ApplyChildren`) and the `State`
byte write at buffer offset `0x17` when a file is rewritten (after its
children were assembled). -/

/-- Modelled from the spec: a section subtree — encapsulating sections
carry only inner sections. -/
inductive Sect where
  | node : List Sect → Sect

/-- Visiting a list of sections (post-order, as `ApplyChildren` followed
by the `*uefi.Section` case): the ambient polarity is threaded through
but never written. -/
def visitSects : Nat → List Sect → Nat
  | pol, [] => pol
  | pol, Sect.node kids :: ss => visitSects (visitSects pol kids) ss

/-- A file node: its buffer and its section children. -/
structure FileT where
  buf : List Nat
  secs : List Sect

/-- A firmware volume node, represented by its derived erase polarity
(`GetErasePolarity` of its attributes) and its file children. -/
structure FVT where
  polarity : Nat
  files : List FileT

/-- The `*uefi.File` case of `Assemble.Visit` as it affects the ambient
polarity and the `State` byte: the section children are visited first,
then `State` at offset `0x17` is set to `0x07 XOR` the ambient polarity
(both the sectionless branch and the reassembly branch do this).
Returns the threaded polarity and the rewritten buffer. -/
def visitFile (pol : Nat) (f : FileT) : Nat × List Nat :=
  (visitSects pol f.secs, f.buf.set 0x17 (Nat.xor 7 (visitSects pol f.secs)))

/-- The `*uefi.FirmwareVolume` case: on entry the ambient polarity is set
from the volume (`uefi.Attributes.ErasePolarity = f.GetErasePolarity()`),
then the children are assembled.  The incoming ambient polarity `g` is
overwritten. -/
def visitFV (g : Nat) (fv : FVT) : Nat × List (List Nat) :=
  fv.files.foldl
    (fun acc f => ((visitFile acc.1 f).1, acc.2 ++ [(visitFile acc.1 f).2]))
    (fv.polarity, [])

/-- Visiting the volumes of a BIOS region in order, threading the ambient
polarity across sibling volumes. -/
def visitFVs (g : Nat) (fvs : List FVT) : Nat × List (List (List Nat)) :=
  fvs.foldl (fun acc fv => ((visitFV acc.1 fv).1, acc.2 ++ [(visitFV acc.1 fv).2]))
    (g, [])

/-! ### Concrete firmware-volume images used below

`cexC6`: 64 bytes, block map just the `(0,0)` terminator,
`ExtHeaderOffset = 0`, declared `Length = 256 > 64`.

`cexC7a`: 64 bytes, declared `Length = 0`, `ExtHeaderOffset = 56`.

`cexC7b`: 80 bytes, declared `Length = 5`, `ExtHeaderOffset = 56`.

`wdataC7`: 88 bytes, declared `Length = 88`, `ExtHeaderOffset = 64`, with
20 bytes of extended header at offset 64. -/

def cexC6 : List Nat :=
  List.replicate 32 0 ++ [0, 1, 0, 0, 0, 0, 0, 0] ++ fvhSignature ++ List.replicate 20 0

def cexC7a : List Nat :=
  List.replicate 32 0 ++ List.replicate 8 0 ++ fvhSignature ++ List.replicate 8 0 ++
    [56, 0] ++ [0, 0] ++ List.replicate 8 0

def cexC7b : List Nat :=
  List.replicate 32 0 ++ [5, 0, 0, 0, 0, 0, 0, 0] ++ fvhSignature ++ List.replicate 8 0 ++
    [56, 0] ++ [0, 0] ++ List.replicate 24 0

def wdataC7 : List Nat :=
  List.replicate 32 0 ++ [88, 0, 0, 0, 0, 0, 0, 0] ++ fvhSignature ++ List.replicate 8 0 ++
    [64, 0] ++ [0, 0] ++ List.replicate 32 0

/-! ## The firmware-volume parser and the round trip

The `pkg/uefi` parser is not part of this source tree; it is modelled
from the spec (§4.2 steps 4–5, §3, §6) at the firmware-volume level, with
files kept raw (the spec's File node explicitly carries "a raw buffer
… when sections have been suppressed").  Deleted files (invalid state
after undoing the polarity XOR) and short or malformed headers are
fatal, per the spec's parser policy.  The extended header bytes lie
inside the region the parser slices verbatim and are not separately
decoded here; the round-trip comparison never inspects them. -/

/-- Modelled from the spec: `GetErasePolarity` — `0xFF` or `0x00`
decoded from the volume attributes (UEFI PI `EFI_FVB2_ERASE_POLARITY`,
bit 11). -/
def GetErasePolarity (attrs : Nat) : Nat := if attrs / 2048 % 2 = 1 then 255 else 0

/-- Modelled from the spec: the data-alignment index encoded in a file
header's `Attributes` byte (UEFI PI `FFS_ATTRIB_DATA_ALIGNMENT`,
bits 3–5), which `GetAlignment` maps through `alignmentBases`. -/
def attrAlignIdx (a : Nat) : Fin 8 := ⟨a / 8 % 8, Nat.mod_lt _ (by omega)⟩

/-- Modelled from the spec: the large-file flag in a file header's
`Attributes` byte (UEFI PI `FFS_ATTRIB_LARGE_FILE`, bit 0): the header
then carries an 8-byte extended size and is 32 bytes long. -/
def attrLargeFile (a : Nat) : Bool := a % 2 = 1

/-- A parsed file: header fields and the whole file slice (header
included), as the fiano `File` keeps its buffer. -/
structure PFile where
  uuid : List Nat
  integrity : Nat
  ftype : Nat
  fattrs : Nat
  state : Nat
  buf : List Nat
deriving Repr, DecidableEq

/-- The file header length: 24 bytes, or 32 with the large-file flag. -/
def fileHeaderLen (f : PFile) : Nat := if attrLargeFile f.fattrs then 32 else 24

/-- Whether every remaining byte is the erase polarity (the parser's
stop condition). -/
def isPolTail (pol : Nat) (l : List Nat) : Bool := l.all fun b => b == pol

/-- Modelled from the spec: reading one file at `off` (§4.2 step 5, §6):
a fixed 24-byte header (32 with the large-file flag), whose declared
size is the total file length.  The state byte is valid when
`(State XOR polarity) & 7 = 7`; anything else, and any short or
self-inconsistent header, is fatal. -/
def parseOneFile (pol : Nat) (buf : List Nat) (off : Nat) : Option PFile :=
  if buf.length < off + 24 then none
  else
    let fattrs := buf.getD (off + 19) 0
    let hl := if attrLargeFile fattrs then 32 else 24
    if buf.length < off + hl then none
    else
      let size := if attrLargeFile fattrs then readLE buf (off + 24) 8
                  else readLE buf (off + 20) 3
      if (Nat.xor (buf.getD (off + 23) 0) pol) % 8 ≠ 7 then none
      else if size < hl then none
      else if buf.length < off + size then none
      else some ⟨(buf.drop off).take 16, readLE buf (off + 16) 2,
                 buf.getD (off + 18) 0, fattrs, buf.getD (off + 23) 0,
                 (buf.drop off).take size⟩

/-- Modelled from the spec: the file loop of the firmware-volume parser
(§4.2 step 5) — starting at `DataOffset`, read files, step to the next
file with `align8`, and stop when the remaining buffer is all
erase-polarity bytes.  `fuel` bounds the recursion; files are at least
24 bytes, so `buf.length + 1` is always enough. -/
def parseFiles (pol : Nat) (buf : List Nat) : Nat → Nat → Option (List PFile)
  | _, 0 => none
  | off, fuel + 1 =>
    if isPolTail pol (buf.drop off) then some []
    else
      match parseOneFile pol buf off with
      | none => none
      | some f =>
        match parseFiles pol buf (Align8 (off + f.buf.length)) fuel with
        | none => none
        | some fs => some (f :: fs)

/-- A parsed firmware volume at the raw-file level. -/
structure ParsedFV where
  header : FirmwareVolumeFixedHeader
  blocks : List (Nat × Nat)
  dataOffset : Nat
  polarity : Nat
  files : List PFile
  buf : List Nat
deriving Repr, DecidableEq

/-- Modelled from the spec: the firmware-volume parser (§4.2 step 4) —
require 64 bytes, read the fixed header and block map, compute
`DataOffset = align8(header end)` and the erase polarity from the
attributes, slice `buf = data[0..Length]` (`ShortBuffer` is fatal), and
parse the files from `DataOffset`.  Like `NewFirmwareVolume` in
`uefi/firmwarevolume.go`, the `_FVH` signature is read but not
validated. -/
def parseFV (data : List Nat) : Option ParsedFV :=
  if data.length < 64 then none
  else
    match readBlocks data 56 data.length with
    | .err => none
    | .panic => none
    | .ok blocks =>
      if (parseFixedHeader data).length ≤ data.length ∧
          Align8 (56 + 8 * (blocks.length + 1)) ≤ (parseFixedHeader data).length then
        match parseFiles (GetErasePolarity (parseFixedHeader data).attributes)
            (data.take (parseFixedHeader data).length)
            (Align8 (56 + 8 * (blocks.length + 1))) (data.length + 1) with
        | none => none
        | some fs =>
          some ⟨parseFixedHeader data, blocks, Align8 (56 + 8 * (blocks.length + 1)),
                GetErasePolarity (parseFixedHeader data).attributes, fs,
                data.take (parseFixedHeader data).length⟩
      else none

/-- The file node handed to the volume placement loop: buffer with the
`State` byte rewritten by the `*uefi.File` case, and the decoded
alignment and large-file flag. -/
def asmFileOf (pol : Nat) (f : PFile) : AsmFile :=
  ⟨f.buf.set 23 (Nat.xor 7 pol), attrAlignIdx f.fattrs, attrLargeFile f.fattrs⟩

/-- The full `Assemble` pass over a parsed volume: the `*uefi.File` case
rewrites each file's `State` byte from the ambient polarity first (the
volume's own, per the traversal), then the `*uefi.FirmwareVolume` case
runs on the node whose buffer holds the header bytes
`buf[0..DataOffset]` (§4.3: assembly starts from the header buffer). -/
def assembleFVFull (p : ParsedFV) : Option (List Nat) :=
  assembleFV
    { length := p.header.length
      dataOffset := p.dataOffset
      headerLen := p.header.headerLen
      polarity := p.polarity
      blocks := p.blocks
      files := p.files.map (asmFileOf p.polarity)
      buf := p.buf.take p.dataOffset }

/-- A parsed volume is in canonical alignment when, at the positions the
parser found its files (threaded here exactly as the parser steps), each
file with a declared data alignment `a > 1` already has its data
`a`-aligned — so reassembly moves nothing and inserts no pad. -/
def filesCanonical : Nat → List PFile → Bool
  | _, [] => true
  | p, f :: fs =>
    (GetAlignment (attrAlignIdx f.fattrs) == 1 ||
      (p + fileHeaderLen f) % GetAlignment (attrAlignIdx f.fattrs) == 0) &&
    filesCanonical (Align8 (p + f.buf.length)) fs

/-- The placements produced for canonically aligned files: each file at
its parsed position, no pads. -/
def placedOf (pol : Nat) : Nat → List PFile → List Placed
  | _, [] => []
  | p, f :: fs =>
    ⟨p, f.buf.set 23 (Nat.xor 7 pol), false⟩ :: placedOf pol (Align8 (p + f.buf.length)) fs

/-- The bytes of the file region of the reassembled volume: each file
(with its `State` byte rewritten) followed by the erase-polarity fill up
to the next 8-aligned position; no fill after the last file. -/
def segOf (pol : Nat) : Nat → List PFile → List Nat
  | _, [] => []
  | _, [f] => f.buf.set 23 (Nat.xor 7 pol)
  | p, f :: g :: fs =>
    f.buf.set 23 (Nat.xor 7 pol) ++
      (List.replicate (Align8 (p + f.buf.length) - (p + f.buf.length)) pol ++
        segOf pol (Align8 (p + f.buf.length)) (g :: fs))

/-- The end of the last placed file. -/
def lastEnd : Nat → List PFile → Nat
  | p, [] => p
  | p, [f] => p + f.buf.length
  | p, f :: g :: fs => lastEnd (Align8 (p + f.buf.length)) (g :: fs)

/-- The self-consistency facts the parser guarantees for each file it
returns: the header fits, the embedded size field equals the buffer
length, and the header fields were read from the buffer. -/
def fileWF (f : PFile) : Prop :=
  fileHeaderLen f ≤ f.buf.length ∧
  (if attrLargeFile f.fattrs then readLE f.buf 24 8 else readLE f.buf 20 3) =
    f.buf.length ∧
  f.buf.getD 19 0 = f.fattrs ∧
  f.uuid = f.buf.take 16 ∧
  f.ftype = f.buf.getD 18 0

/-- Structural equality in the round-trip sense: same number of files
and, file by file, identical UUIDs, types and payloads (the bytes after
the fixed file header; the `State` byte and the recomputed checksums are
not part of the comparison), plus an identical volume filesystem GUID. -/
def structEq (p q : ParsedFV) : Bool :=
  (p.header.fileSystemGUID == q.header.fileSystemGUID) &&
  (p.files.length == q.files.length) &&
  ((p.files.zip q.files).all fun fg =>
    (fg.1.uuid == fg.2.uuid) && (fg.1.ftype == fg.2.ftype) &&
    (fg.1.buf.drop 24 == fg.2.buf.drop 24))

/-- Project a parsed volume out of an `Option`. -/
def pvOk (o : Option ParsedFV) : ParsedFV :=
  o.getD ⟨⟨[], 0, 0, 0, 0, 0, 0, 0, 0⟩, [], 0, 0, [], []⟩

/-- What the round trip does to a parsed file: the `State` byte (offset
23 of the file buffer) is rewritten to `0x07 XOR polarity`, and the
integrity-check word is re-read from the buffer; everything else is
kept. -/
def reState (pol : Nat) (f : PFile) : PFile :=
  ⟨f.uuid, readLE f.buf 16 2, f.ftype, f.fattrs, Nat.xor 7 pol,
   f.buf.set 23 (Nat.xor 7 pol)⟩

/-- `cexC1`: a 192-byte volume image that parses successfully but is not
canonically aligned: its second file declares 16-byte data alignment
while its data sits at `112 + 24 = 136 ≡ 8 (mod 16)`.  `wdataC1` is the
canonical variant (first file 8 bytes shorter, so the second file's data
lands at `104 + 24 = 128 ≡ 0 (mod 16)`). -/
def cexC1 : List Nat :=
  List.replicate 16 0 ++ List.replicate 16 0x11 ++ [192, 0, 0, 0, 0, 0, 0, 0] ++
    fvhSignature ++ [0x00, 0x08, 0, 0] ++ [72, 0] ++ [0, 0] ++ [0, 0] ++ [0, 0] ++
    ([3, 0, 0, 0, 64, 0, 0, 0] ++ List.replicate 8 0) ++
    (List.replicate 16 0xAA ++ [0, 0] ++ [1] ++ [0] ++ [40, 0, 0] ++ [0xF8] ++
      List.replicate 16 0xBB) ++
    (List.replicate 16 0xCC ++ [0, 0] ++ [1] ++ [8] ++ [32, 0, 0] ++ [0xF8] ++
      List.replicate 8 0xDD) ++
    List.replicate 48 0xFF

def wdataC1 : List Nat :=
  List.replicate 16 0 ++ List.replicate 16 0x11 ++ [192, 0, 0, 0, 0, 0, 0, 0] ++
    fvhSignature ++ [0x00, 0x08, 0, 0] ++ [72, 0] ++ [0, 0] ++ [0, 0] ++ [0, 0] ++
    ([3, 0, 0, 0, 64, 0, 0, 0] ++ List.replicate 8 0) ++
    (List.replicate 16 0xAA ++ [0, 0] ++ [1] ++ [0] ++ [32, 0, 0] ++ [0xF8] ++
      List.replicate 8 0xBB) ++
    (List.replicate 16 0xCC ++ [0, 0] ++ [1] ++ [8] ++ [32, 0, 0] ++ [0xF8] ++
      List.replicate 8 0xDD) ++
    List.replicate 56 0xFF

/-- C5: `FindFirmwareVolumeOffset` only returns `-1` on signature-free
inputs whose length leaves no partial 4-byte window at an 8-aligned scan
offset.  On a 33-byte input the scan reaches offset 32 and the slice
`data[32:36]` runs past the end: the function panics instead of returning
`-1` as its documentation promises.  Inputs of 31 or 48 bytes do return
`-1`, and a signature at offset 32 yields `32 - 40 = -8`. -/
theorem findFirmwareVolumeOffset_panics_on_partial_window :
    FindFirmwareVolumeOffset (List.replicate 33 0) = none ∧
    FindFirmwareVolumeOffset (List.replicate 31 0) = some (-1) ∧
    FindFirmwareVolumeOffset (List.replicate 48 0) = some (-1) ∧
    FindFirmwareVolumeOffset (List.replicate 32 0 ++ fvhSignature) = some (-8) := by
  decide

/-- C6: `NewFirmwareVolume` never compares the declared `Length` with the
buffer length.  On a well-formed 64-byte input declaring `Length = 256`
the final slice `data[:fv.Length]` panics instead of returning the
structural error the claim (and the function's documentation) promises. -/
theorem newFirmwareVolume_panics_on_long_length :
    readLE cexC6 32 8 = 256 ∧ cexC6.length = 64 ∧
    NewFirmwareVolume cexC6 = .panic := by
  decide

/-- C7 counterexample: the extended-header condition is evaluated in
wrapping `uint64` arithmetic, so for a declared `Length < 20` the
subtraction `Length - 20` wraps around and the extended header IS read
whenever `ExtHeaderOffset ≠ 0` — contradicting the claim that for
`Length < 20` no extended header is read and parsing cannot fail on that
account.  With `Length = 0, ExtHeaderOffset = 56` on a 64-byte input the
20-byte read runs past the end and parsing fails; with `Length = 5,
ExtHeaderOffset = 56` on an 80-byte input the extended header is read. -/
theorem newFirmwareVolume_extheader_wraps :
    (readLE cexC7a 32 8 = 0 ∧ NewFirmwareVolume cexC7a = .err) ∧
    (readLE cexC7b 32 8 = 5 ∧
      NewFirmwareVolume cexC7b ≠ .err ∧ NewFirmwareVolume cexC7b ≠ .panic ∧
      (fvOk (NewFirmwareVolume cexC7b)).extHeader.isSome = true) := by
  decide

/-- C7 amended: a successfully parsed firmware volume carries an extended
header exactly when `ExtHeaderOffset ≠ 0` and
`ExtHeaderOffset < (Length - 20) mod 2^64`, the comparison the source
performs on `uint64` values (which wraps around for `Length < 20`). -/
theorem fvExtPhase_header_extHeader (data : List Nat) (hdr : FirmwareVolumeFixedHeader)
    (blocks : List (Nat × Nat)) (fv : FirmwareVolume)
    (h : fvExtPhase data hdr blocks = .ok fv) :
    fv.header = hdr ∧
      (fv.extHeader.isSome ↔
        (hdr.extHeaderOffset ≠ 0 ∧
          hdr.extHeaderOffset < (hdr.length + 2 ^ 64 - 20) % 2 ^ 64)) := by
  unfold fvExtPhase finishFV at h
  split at h
  · split at h
    · exact absurd h (by simp)
    · split at h
      · exact absurd h (by simp)
      · split at h
        · injection h with h
          subst h
          exact ⟨rfl, iff_of_true (by simp) ‹_ ∧ _›⟩
        · exact absurd h (by simp)
  · split at h
    · injection h with h
      subst h
      exact ⟨rfl, iff_of_false (by simp) ‹¬(_ ∧ _)›⟩
    · exact absurd h (by simp)

theorem newFirmwareVolume_extheader_condition (data : List Nat) (fv : FirmwareVolume)
    (h : NewFirmwareVolume data = .ok fv) :
    fv.extHeader.isSome ↔
      (fv.header.extHeaderOffset ≠ 0 ∧
        fv.header.extHeaderOffset < (fv.header.length + 2 ^ 64 - 20) % 2 ^ 64) := by
  unfold NewFirmwareVolume at h
  split at h
  · exact absurd h (by simp)
  · split at h
    · exact absurd h (by simp)
    · exact absurd h (by simp)
    · obtain ⟨hh, hiff⟩ := fvExtPhase_header_extHeader _ _ _ _ h
      rw [hh]
      exact hiff

/-- C7 amended, witness: a concrete 88-byte volume with
`Length = 88, ExtHeaderOffset = 64` parses with an extended header, and
the amended condition evaluates accordingly. -/
theorem newFirmwareVolume_extheader_condition_witness :
    (fvOk (NewFirmwareVolume wdataC7)).extHeader.isSome ↔
      ((fvOk (NewFirmwareVolume wdataC7)).header.extHeaderOffset ≠ 0 ∧
        (fvOk (NewFirmwareVolume wdataC7)).header.extHeaderOffset <
          ((fvOk (NewFirmwareVolume wdataC7)).header.length + 2 ^ 64 - 20) % 2 ^ 64) :=
  newFirmwareVolume_extheader_condition wdataC7 (fvOk (NewFirmwareVolume wdataC7))
    (by decide)

/-! ## Alignment and byte-store lemmas -/

theorem Align_le (x a : Nat) : x ≤ Align x a := by
  unfold Align
  split
  · exact Nat.le_refl x
  · exact Nat.le_add_right x _

theorem Align_lt (x a : Nat) (ha : 0 < a) : Align x a < x + a := by
  unfold Align
  split
  · omega
  · have := Nat.mod_lt x ha
    omega

theorem writeLE_length (buf : List Nat) (off n v : Nat) :
    (writeLE buf off n v).length = buf.length := by
  induction n generalizing buf off v with
  | zero => rfl
  | succ m ih => simp [writeLE, ih]

theorem putLE_eq_some (buf : List Nat) (off n v : Nat) (out : List Nat)
    (h : putLE buf off n v = some out) :
    off + n ≤ buf.length ∧ out = writeLE buf off n v := by
  unfold putLE at h
  split at h
  · exact ⟨‹_›, (Option.some.inj h).symm⟩
  · exact absurd h (by simp)

theorem writeLE_cons (x : Nat) (rest : List Nat) (k n v : Nat) :
    writeLE (x :: rest) (k + 1) n v = x :: writeLE rest k n v := by
  induction n generalizing rest k v with
  | zero => rfl
  | succ m ih => simp [writeLE, ih]

theorem writeLE_two (b : List Nat) (off v : Nat) (h : off + 2 ≤ b.length) :
    writeLE b off 2 v = b.take off ++ [v % 256, v / 256 % 256] ++ b.drop (off + 2) := by
  induction off generalizing b with
  | zero =>
    match b, h with
    | x :: y :: rest, _ => simp [writeLE]
  | succ k ih =>
    match b, h with
    | x :: rest, h =>
      have hk : k + 2 ≤ rest.length := by simpa using h
      simp [writeLE_cons, ih rest hk]

theorem words16LE_append : ∀ (l1 : List Nat), l1.length % 2 = 0 →
    ∀ l2, words16LE (l1 ++ l2) = words16LE l1 ++ words16LE l2
  | [], _, l2 => rfl
  | [a], h, l2 => by simp at h
  | a :: b :: rest, h, l2 => by
    have ih := words16LE_append rest (by simp at h; omega) l2
    simp [words16LE, ih]

theorem wordSum16_append (l1 l2 : List Nat) (h : l1.length % 2 = 0) :
    wordSum16 (l1 ++ l2) = wordSum16 l1 + wordSum16 l2 := by
  simp [wordSum16, words16LE_append l1 h l2]

/-! ## C2: the assembler's header checksum sums to zero -/

theorem patchFVHeader_checksum (buf : List Nat) (hl flen count : Nat) (out : List Nat)
    (h : patchFVHeader buf hl flen count = some out) (h52 : 52 ≤ hl) :
    wordSum16 (out.take hl) % 65536 = 0 := by
  unfold patchFVHeader at h
  split at h
  · exact absurd h (by simp)
  rename_i b1 hb1
  split at h
  · exact absurd h (by simp)
  rename_i b2 hb2
  split at h
  · exact absurd h (by simp)
  rename_i b3 hb3
  split at h
  case isFalse => exact absurd h (by simp)
  case isTrue hhl =>
  split at h
  · exact absurd h (by simp)
  rename_i sum hcs
  obtain ⟨hlen3, hb3eq⟩ := putLE_eq_some _ _ _ _ _ hb3
  obtain ⟨hlenout, houteq⟩ := putLE_eq_some _ _ _ _ _ h
  set v := (65536 - sum) % 65536 with hv
  have hlen2 : 52 ≤ b2.length := by omega
  have hA : (b2.take 50).length = 50 := by
    simp only [List.length_take]
    omega
  -- decompose b3 and out around the checksum word at offset 50
  have hb3d : b3 = (b2.take 50 ++ [0, 0]) ++ b2.drop 52 := by
    rw [hb3eq, writeLE_two b2 50 0 (by omega)]
  have hlenb3 : 52 ≤ b3.length := by
    rw [hb3eq, writeLE_length]
    omega
  have htake50 : ∀ (x y : Nat) (C : List Nat), ((b2.take 50 ++ [x, y]) ++ C).take 50 = b2.take 50 := by
    intro x y C
    rw [List.take_append_eq_append_take, List.take_append_eq_append_take]
    simp [hA]
  have hdrop52 : ∀ (x y : Nat) (C : List Nat), ((b2.take 50 ++ [x, y]) ++ C).drop 52 = C := by
    intro x y C
    rw [List.drop_append_eq_append_drop]
    simp [hA]
  have houtd : out = (b2.take 50 ++ [v % 256, v / 256 % 256]) ++ b2.drop 52 := by
    rw [houteq, writeLE_two b3 50 v (by omega), hb3d]
    rw [show (50 : Nat) + 2 = 52 from rfl, htake50, hdrop52]
  -- both take-hl slices split as prefix, checksum word, tail
  have htail : ∀ x y : Nat, ((b2.take 50 ++ [x, y]) ++ b2.drop 52).take hl =
      (b2.take 50 ++ [x, y]) ++ (b2.drop 52).take (hl - 52) := by
    intro x y
    rw [List.take_append_eq_append_take, List.take_of_length_le (by simp [hA]; omega)]
    have : (b2.take 50 ++ [x, y]).length = 52 := by simp [hA]
    rw [this]
  have hsumsplit : ∀ x y : Nat, wordSum16 (((b2.take 50 ++ [x, y]) ++ b2.drop 52).take hl) =
      wordSum16 (b2.take 50) + (x + 256 * y) + wordSum16 ((b2.drop 52).take (hl - 52)) := by
    intro x y
    rw [htail x y, List.append_assoc, wordSum16_append _ _ (by rw [hA]),
      wordSum16_append [x, y] _ (by simp)]
    simp [wordSum16, words16LE]
    ring
  -- evaluate the checksum hypothesis
  have hsum : sum = wordSum16 (b3.take hl) % 65536 := by
    unfold Checksum16 at hcs
    split at hcs
    · exact absurd hcs (by simp)
    · exact (Option.some.inj hcs).symm
  rw [hb3d, hsumsplit] at hsum
  rw [houtd, hsumsplit]
  set A := wordSum16 (b2.take 50)
  set B := wordSum16 ((b2.drop 52).take (hl - 52))
  omega

/-- C2 amended: for every firmware volume with at least one file that the
assembler successfully rebuilds, provided the declared `HeaderLen` covers
the 16-bit checksum field at offset 50 (`HeaderLen ≥ 52`, true of every
well-formed header since the fixed header alone is 56 bytes), the 16-bit
little-endian word sum over `buf[0..HeaderLen]` of the emitted buffer is
zero: the assembler zeroes the checksum at offset 50, computes
`checksum16` over `buf[0..HeaderLen]` and stores its negation at 50. -/
theorem assembleFV_checksum_zero (fv : AsmFV) (out : List Nat)
    (hne : fv.files ≠ []) (h : assembleFV fv = some out) (h52 : 52 ≤ fv.headerLen) :
    wordSum16 (out.take fv.headerLen) % 65536 = 0 := by
  unfold assembleFV at h
  rw [if_neg hne] at h
  split at h
  · exact absurd h (by simp)
  split at h
  · exact absurd h (by simp)
  split at h
  · exact absurd h (by simp)
  split at h
  · exact absurd h (by simp)
  exact patchFVHeader_checksum _ _ _ _ _ h h52

set_option maxRecDepth 100000 in
/-- C2 amended, witness: a concrete one-file volume with
`HeaderLen = 56` assembles, and the emitted header word-sums to zero. -/
theorem assembleFV_checksum_zero_witness :
    wordSum16 (((assembleFV wfvC2).getD []).take wfvC2.headerLen) % 65536 = 0 :=
  assembleFV_checksum_zero wfvC2 ((assembleFV wfvC2).getD [])
    (by decide) (by decide) (by decide)

set_option maxRecDepth 100000 in
/-- C2 counterexample: the zero-sum property fails for a successfully
assembled volume whose (unvalidated) `HeaderLen` is 2: the stored
negation at offset 50 then lies outside the checksummed range, and the
word sum over `buf[0..2]` is 1. -/
theorem assembleFV_checksum_nonzero_small_headerlen :
    cexC2fv.files ≠ [] ∧ assembleFV cexC2fv ≠ none ∧
    wordSum16 (((assembleFV cexC2fv).getD []).take cexC2fv.headerLen) % 65536 = 1 := by
  decide

/-! ## C10: the firmware-volume preconditions -/

/-- C10: with at least one file child, `Assemble.Visit` on a firmware
volume errors out before any file placement unless the backing buffer is
no longer than the declared `Length` and is exactly `DataOffset` bytes
long; conversely a successful assembly implies both preconditions. -/
theorem assembleFV_preconditions (fv : AsmFV) (hne : fv.files ≠ []) :
    ((fv.length < fv.buf.length ∨ fv.buf.length ≠ fv.dataOffset) → assembleFV fv = none) ∧
    (∀ out, assembleFV fv = some out →
      fv.buf.length ≤ fv.length ∧ fv.buf.length = fv.dataOffset) := by
  constructor
  · intro hbad
    unfold assembleFV
    rw [if_neg hne]
    by_cases hlen : fv.length < fv.buf.length
    · rw [if_pos hlen]
    · have hdo : fv.buf.length ≠ fv.dataOffset := by
        rcases hbad with hb | hb
        · exact absurd hb hlen
        · exact hb
      rw [if_neg hlen, if_pos (Ne.symm hdo)]
  · intro out h
    unfold assembleFV at h
    rw [if_neg hne] at h
    split at h
    case isTrue => exact absurd h (by simp)
    case isFalse hlen =>
    split at h
    case isTrue => exact absurd h (by simp)
    case isFalse hdo =>
    exact ⟨by omega, by omega⟩

/-- C10 witness: a volume declaring `Length = 32` with a 64-byte buffer
is rejected. -/
theorem assembleFV_preconditions_witness : assembleFV cexC10fv = none :=
  (assembleFV_preconditions cexC10fv (by decide)).1 (by decide)

/-! ## C3: the pad-file invariant of file placement -/

theorem CreatePadFile_length (pol n : Nat) (b : List Nat)
    (h : CreatePadFile pol n = some b) :
    b.length = n ∧ FileHeaderMinLength ≤ n := by
  unfold CreatePadFile at h
  split at h
  · exact absurd h (by simp)
  · refine ⟨?_, by omega⟩
    rw [← Option.some.inj h]
    simp [FileHeaderMinLength] at *
    omega

theorem le_newOffsetFor (aligned hl a : Nat) : aligned ≤ newOffsetFor aligned hl a := by
  unfold newOffsetFor
  have h1 := Align_le (aligned + hl) a
  have h2 := Align_le (Align (aligned + hl) a + 1) a
  split <;> omega

theorem placeOne_shape (pol off : Nat) (f : AsmFile) (ps : List Placed) (off' : Nat)
    (h : placeOne pol off f = some (ps, off')) :
    (∃ o, ps = [⟨o, f.buf, false⟩] ∧ off ≤ o ∧ o - off < 8 ∧
      off' = o + f.buf.length) ∨
    (∃ o no pbuf, ps = [⟨o, pbuf, true⟩, ⟨no, f.buf, false⟩] ∧ off ≤ o ∧ o - off < 8 ∧
      o ≤ no ∧ pbuf.length = no - o ∧ FileHeaderMinLength ≤ no - o ∧
      off' = no + f.buf.length) := by
  have ha1 : off ≤ Align8 off := Align_le off 8
  have ha2 : Align8 off - off < 8 := by
    have := Align_lt off 8 (by omega)
    unfold Align8
    omega
  unfold placeOne at h
  split at h
  · exact absurd h (by simp)
  split at h
  · injection h with h
    rw [Prod.mk.injEq] at h
    obtain ⟨hps, hoff⟩ := h
    exact Or.inl ⟨Align8 off, hps.symm, ha1, ha2, hoff.symm⟩
  split at h
  case isTrue hne =>
    cases hcp : CreatePadFile pol
        (newOffsetFor (Align8 off) f.headerLen (GetAlignment f.alignIdx) - Align8 off) with
    | none => rw [hcp] at h; exact absurd h (by simp)
    | some pbuf =>
      rw [hcp] at h
      injection h with h
      rw [Prod.mk.injEq] at h
      obtain ⟨hps, hoff⟩ := h
      obtain ⟨hplen, hpmin⟩ := CreatePadFile_length _ _ _ hcp
      exact Or.inr ⟨Align8 off,
        newOffsetFor (Align8 off) f.headerLen (GetAlignment f.alignIdx), pbuf,
        hps.symm, ha1, ha2, le_newOffsetFor _ _ _, hplen, hpmin, hoff.symm⟩
  case isFalse =>
    injection h with h
    rw [Prod.mk.injEq] at h
    obtain ⟨hps, hoff⟩ := h
    exact Or.inl ⟨Align8 off, hps.symm, ha1, ha2, hoff.symm⟩

theorem padsTight_cons_file (p : Placed) (ps : List Placed) (hp : p.isPad = false)
    (h : padsTight ps = true) : padsTight (p :: ps) = true := by
  cases ps with
  | nil => simp [padsTight, hp]
  | cons q qs => simp [padsTight, hp, h]

theorem noSmallGaps_cons (off : Nat) (p : Placed) (ps : List Placed) :
    noSmallGaps off (p :: ps) =
      ((!(decide (8 ≤ p.offset - off) && decide (p.offset - off < FileHeaderMinLength))) &&
        noSmallGaps (p.offset + p.buf.length) ps) := by
  simp [noSmallGaps, gapsList]

/-- C3: after successful placement of a firmware volume's files, no hole
between consecutive placed items has a size in
`[8, FileHeaderMinLength)` (tentative gaps in that range are bumped to
the next alignment boundary inside `newOffsetFor`), and every
synthesised pad file exactly fills the hole it covers — it ends exactly
where the following file starts and is at least `FileHeaderMinLength`
long. -/
theorem placeFiles_pad_invariant (pol : Nat) (files : List AsmFile) :
    ∀ off placed fin, placeFiles pol off files = some (placed, fin) →
      noSmallGaps off placed = true ∧ padsTight placed = true := by
  induction files with
  | nil =>
    intro off placed fin h
    unfold placeFiles at h
    injection h with h
    rw [Prod.mk.injEq] at h
    obtain ⟨hps, _⟩ := h
    rw [← hps]
    exact ⟨rfl, rfl⟩
  | cons f fs ih =>
    intro off placed fin h
    unfold placeFiles at h
    split at h
    · exact absurd h (by simp)
    rename_i ps off' hp1
    split at h
    · exact absurd h (by simp)
    rename_i rest fin' hp2
    injection h with h
    rw [Prod.mk.injEq] at h
    obtain ⟨hps, _⟩ := h
    subst hps
    obtain ⟨ihg, ihp⟩ := ih off' rest fin' hp2
    rcases placeOne_shape pol off f ps off' hp1 with
      ⟨o, hps, hoo, ho8, hoff'⟩ | ⟨o, no, pbuf, hps, hoo, ho8, hono, hplen, hpmin, hoff'⟩
    · subst hps
      constructor
      · rw [List.cons_append, noSmallGaps_cons]
        simp only [Bool.and_eq_true, Bool.not_eq_true']
        refine ⟨by simp [FileHeaderMinLength]; omega, ?_⟩
        rw [← hoff']
        exact ihg
      · exact padsTight_cons_file _ _ rfl ihp
    · subst hps
      constructor
      · rw [List.cons_append, noSmallGaps_cons, List.cons_append, noSmallGaps_cons]
        simp only [Bool.and_eq_true, Bool.not_eq_true']
        refine ⟨by simp [FileHeaderMinLength]; omega, ?_, ?_⟩
        · rw [show no - (o + pbuf.length) = 0 from by omega]
          decide
        · rw [List.nil_append, show no + f.buf.length = off' from hoff'.symm]
          exact ihg
      · have hq : padsTight ({ offset := no, buf := f.buf, isPad := false } :: rest) = true :=
          padsTight_cons_file _ _ rfl ihp
        simp only [List.cons_append, List.nil_append, padsTight, hq, Bool.and_true]
        simp [hplen]
        exact ⟨⟨by omega, hpmin⟩, hq⟩

/-- C3 witness: a concrete two-file placement in which the second file's
16-byte data alignment forces first a bump and then a 24-byte pad. -/
theorem placeFiles_pad_invariant_witness :
    noSmallGaps 64 wplacedC3 = true ∧ padsTight wplacedC3 = true :=
  placeFiles_pad_invariant 255 wfilesC3 64 wplacedC3 wfinC3 (by decide)

/-! ## C9: region validity and offsets -/

/-- C9: the spec's `Region` helpers satisfy
`Valid ⇔ (Limit ≥ Base ∧ Limit ≠ 0)`, `BaseOffset = Base << 12`,
`EndOffset = (Limit+1) << 12`, and agree with all five test vectors of
`pkg/uefi/region_test.go`, including `Region{4, 0xFFFF}` whose end offset
`0x10000000` requires the `Limit + 1` sum to be taken before
truncation. -/
theorem region_test_vectors :
    (∀ r : Region, r.Valid = true ↔ (r.limit ≥ r.base ∧ r.limit ≠ 0)) ∧
    (∀ r : Region, r.BaseOffset = r.base * 4096 ∧ r.EndOffset = (r.limit + 1) * 4096) ∧
    (regionTestcases.all fun tc =>
      (tc.1.Valid == tc.2.1) && (tc.1.BaseOffset == tc.2.2.1) &&
        (tc.1.EndOffset == tc.2.2.2)) = true := by
  refine ⟨?_, fun r => ⟨rfl, rfl⟩, by decide⟩
  intro r
  simp [Region.Valid, ge_iff_le]

/-- C9 witness: the characterization applied to the concrete test vector
`Region{100, 200}`. -/
theorem region_test_vectors_witness :
    (Region.mk 100 200).Valid = true ↔ ((200 : Nat) ≥ 100 ∧ (200 : Nat) ≠ 0) :=
  region_test_vectors.1 ⟨100, 200⟩

/-! ## C4: the `State` byte and the enclosing volume's polarity -/

theorem visitSects_id (pol : Nat) (ss : List Sect) : visitSects pol ss = pol := by
  induction pol, ss using visitSects.induct with
  | case1 pol => simp only [visitSects]
  | case2 pol kids ss ih1 ih2 =>
    simp only [visitSects]
    rw [ih1] at ih2 ⊢
    exact ih2

theorem visitFile_spec (pol : Nat) (f : FileT) :
    visitFile pol f = (pol, f.buf.set 0x17 (Nat.xor 7 pol)) := by
  simp [visitFile, visitSects_id]

theorem visitFV_fold (pol : Nat) (files : List FileT) (acc : List (List Nat)) :
    files.foldl (fun acc f => ((visitFile acc.1 f).1, acc.2 ++ [(visitFile acc.1 f).2]))
      (pol, acc) =
    (pol, acc ++ files.map fun f => f.buf.set 0x17 (Nat.xor 7 pol)) := by
  induction files generalizing acc with
  | nil => simp
  | cons f fs ih =>
    rw [List.foldl_cons]
    dsimp only
    rw [visitFile_spec pol f]
    dsimp only
    rw [ih]
    simp

theorem visitFV_spec (g : Nat) (fv : FVT) :
    visitFV g fv = (fv.polarity, fv.files.map fun f => f.buf.set 0x17 (Nat.xor 7 fv.polarity)) := by
  simp [visitFV, visitFV_fold]

theorem visitFVs_fold (fvs : List FVT) : ∀ (g : Nat) (acc : List (List (List Nat))),
    fvs.foldl (fun acc fv => ((visitFV acc.1 fv).1, acc.2 ++ [(visitFV acc.1 fv).2])) (g, acc) =
    (fvs.foldl (fun _ fv => fv.polarity) g,
      acc ++ fvs.map fun fv => fv.files.map fun f => f.buf.set 0x17 (Nat.xor 7 fv.polarity)) := by
  induction fvs with
  | nil => intro g acc; simp
  | cons fv fvs ih =>
    intro g acc
    rw [List.foldl_cons]
    dsimp only
    rw [visitFV_spec g fv]
    dsimp only
    rw [ih]
    simp

/-- C4: across any sequence of sibling firmware volumes and whatever the
incoming ambient polarity, every file buffer rewritten by the assembler
has its `State` byte at offset `0x17` set to `0x07 XOR` the erase
polarity of that file's own enclosing firmware volume — the polarity set
on entering that volume is still in force after the file's section
children are assembled, since (per the spec's data model) no firmware
volume occurs below a section and sections never write the ambient
polarity. -/
theorem assembleState_uses_enclosing_polarity (g : Nat) (fvs : List FVT) :
    (visitFVs g fvs).2 =
      fvs.map fun fv => fv.files.map fun f => f.buf.set 0x17 (Nat.xor 7 fv.polarity) := by
  unfold visitFVs
  rw [visitFVs_fold]
  simp

/-! ## C8: 4-aligned, zero-filled child concatenation -/

theorem Align_mod (x a : Nat) (ha : 0 < a) : Align x a % a = 0 := by
  unfold Align
  split
  · assumption
  · have hd := Nat.div_add_mod x a
    have hr : x % a < a := Nat.mod_lt _ ha
    have hcomm : a * (x / a) = x / a * a := Nat.mul_comm _ _
    have hstep : x + (a - x % a) = (x / a + 1) * a := by
      rw [Nat.add_mul, Nat.one_mul]
      omega
    rw [hstep]
    exact Nat.mul_mod_left _ _

theorem drop_append_ge (l1 l2 : List Nat) (n : Nat) (h : l1.length ≤ n) :
    (l1 ++ l2).drop n = l2.drop (n - l1.length) := by
  rw [List.drop_append_eq_append_drop, List.drop_eq_nil_of_le h, List.nil_append]

theorem getD_replicate (n i x y : Nat) (h : i < n) :
    (List.replicate n x).getD i y = x := by
  induction n generalizing i with
  | zero => omega
  | succ m ih =>
    cases i with
    | zero => rfl
    | succ j => exact ih j (by omega)

theorem sectionOffsets_aligned : ∀ (bufs : List (List Nat)) (d k : Nat), k < bufs.length →
    (sectionOffsets d bufs).getD k 0 % 4 = 0
  | [], _, _, hk => absurd hk (by simp)
  | s :: ss, d, 0, _ => by
    simp only [sectionOffsets, List.getD_cons_zero]
    exact Align_mod d 4 (by omega)
  | s :: ss, d, k + 1, hk => by
    simp only [sectionOffsets, List.getD_cons_succ]
    exact sectionOffsets_aligned ss (Align4 d + s.length) k (by simpa using hk)

theorem sectionOffsets_ge : ∀ (bufs : List (List Nat)) (d k : Nat), k < bufs.length →
    d ≤ (sectionOffsets d bufs).getD k 0
  | [], _, _, hk => absurd hk (by simp)
  | s :: ss, d, 0, _ => by
    simp only [sectionOffsets, List.getD_cons_zero]
    exact Align_le d 4
  | s :: ss, d, k + 1, hk => by
    simp only [sectionOffsets, List.getD_cons_succ]
    have h1 := sectionOffsets_ge ss (Align4 d + s.length) k (by simpa using hk)
    have h2 := Align_le d 4
    unfold Align4 at h1 ⊢
    omega

theorem sectionConcat_child : ∀ (bufs : List (List Nat)) (d k : Nat), k < bufs.length →
    ((sectionConcat d bufs).drop ((sectionOffsets d bufs).getD k 0 - d)).take
      (bufs.getD k []).length = bufs.getD k []
  | [], _, _, hk => absurd hk (by simp)
  | s :: ss, d, 0, _ => by
    simp only [sectionConcat, sectionOffsets, List.getD_cons_zero]
    rw [drop_append_ge _ _ _ (by simp)]
    have hp : Align4 d - d - (List.replicate (Align4 d - d) 0).length = 0 := by simp
    rw [hp, List.drop_zero, List.take_append_eq_append_take, List.take_of_length_le (by omega)]
    simp
  | s :: ss, d, k + 1, hk => by
    have hk1 : k < ss.length := by simpa using hk
    simp only [sectionConcat, sectionOffsets, List.getD_cons_succ]
    have ho := sectionOffsets_ge ss (Align4 d + s.length) k hk1
    have hda := Align_le d 4
    have hc1 : (List.replicate (Align4 d - d) 0).length ≤
        (sectionOffsets (Align4 d + s.length) ss).getD k 0 - d := by
      rw [List.length_replicate]
      unfold Align4 at ho ⊢
      omega
    rw [drop_append_ge _ _ _ hc1]
    have hc2 : s.length ≤ (sectionOffsets (Align4 d + s.length) ss).getD k 0 - d -
        (List.replicate (Align4 d - d) 0).length := by
      rw [List.length_replicate]
      unfold Align4 at ho ⊢
      omega
    rw [drop_append_ge _ _ _ hc2]
    have heq : (sectionOffsets (Align4 d + s.length) ss).getD k 0 - d -
        (List.replicate (Align4 d - d) 0).length - s.length =
        (sectionOffsets (Align4 d + s.length) ss).getD k 0 - (Align4 d + s.length) := by
      rw [List.length_replicate]
      unfold Align4 at ho ⊢
      omega
    rw [heq]
    exact sectionConcat_child ss (Align4 d + s.length) k hk1

theorem sectionConcat_hole : ∀ (bufs : List (List Nat)) (d i : Nat),
    i < (sectionConcat d bufs).length →
    (∀ j, j < bufs.length →
      i + d < (sectionOffsets d bufs).getD j 0 ∨
      (sectionOffsets d bufs).getD j 0 + (bufs.getD j []).length ≤ i + d) →
    (sectionConcat d bufs).getD i 1 = 0
  | [], _, _, hi, _ => absurd hi (by simp [sectionConcat])
  | s :: ss, d, i, hi, hhole => by
    have hda := Align_le d 4
    simp only [sectionConcat] at hi ⊢
    by_cases h1 : i < Align4 d - d
    · rw [List.getD_append _ _ _ _ (by simp; omega)]
      exact getD_replicate _ _ _ _ (by simpa using h1)
    · by_cases h2 : i < (Align4 d - d) + s.length
      · exfalso
        have h0 := hhole 0 (by simp)
        simp only [sectionOffsets, List.getD_cons_zero, List.getD_cons_zero] at h0
        unfold Align4 at h0 hda h1 h2
        omega
      · rw [List.getD_append_right _ _ _ _ (by simp; omega)]
        rw [List.getD_append_right _ _ _ _ (by simp; omega)]
        have hlen : i - (List.replicate (Align4 d - d) 0).length - s.length <
            (sectionConcat (Align4 d + s.length) ss).length := by
          simp only [List.length_append, List.length_replicate] at hi
          simp only [List.length_replicate]
          omega
        have hshift : ∀ j, j < ss.length →
            (i - (List.replicate (Align4 d - d) 0).length - s.length) +
              (Align4 d + s.length) <
              (sectionOffsets (Align4 d + s.length) ss).getD j 0 ∨
            (sectionOffsets (Align4 d + s.length) ss).getD j 0 +
              (ss.getD j []).length ≤
              (i - (List.replicate (Align4 d - d) 0).length - s.length) +
              (Align4 d + s.length) := by
          intro j hj
          have hj1 := hhole (j + 1) (by simpa using hj)
          simp only [sectionOffsets, List.getD_cons_succ] at hj1
          have hidx : (i - (List.replicate (Align4 d - d) 0).length - s.length) +
              (Align4 d + s.length) = i + d := by
            simp only [List.length_replicate]
            unfold Align4 at *
            omega
          rw [hidx]
          exact hj1
        exact sectionConcat_hole ss (Align4 d + s.length) _ hlen hshift

/-- C8: concatenating the children of a file or of an encapsulating
section places every child at a 4-byte-aligned offset, reproduces each
child verbatim at its offset, and fills every position not covered by a
child with `0x00` (the constant zero fill of the source loop, not the
erase polarity used for holes inside files and volumes). -/
theorem sectionConcat_c8 (bufs : List (List Nat)) :
    (∀ k, k < bufs.length → (sectionOffsets 0 bufs).getD k 0 % 4 = 0) ∧
    (∀ k, k < bufs.length →
      ((sectionConcat 0 bufs).drop ((sectionOffsets 0 bufs).getD k 0)).take
        (bufs.getD k []).length = bufs.getD k []) ∧
    (∀ i, i < (sectionConcat 0 bufs).length →
      (∀ j, j < bufs.length →
        i < (sectionOffsets 0 bufs).getD j 0 ∨
        (sectionOffsets 0 bufs).getD j 0 + (bufs.getD j []).length ≤ i) →
      (sectionConcat 0 bufs).getD i 1 = 0) := by
  refine ⟨fun k hk => sectionOffsets_aligned bufs 0 k hk, fun k hk => ?_, fun i hi hhole => ?_⟩
  · have h := sectionConcat_child bufs 0 k hk
    simpa using h
  · refine sectionConcat_hole bufs 0 i hi ?_
    intro j hj
    simpa using hhole j hj

/-! ## C1: the round trip through the firmware-volume codec -/

set_option maxRecDepth 1000000 in
/-- C1 counterexample: `cexC1` parses successfully into two files, but
its second file's declared 16-byte data alignment is not satisfied at
its parsed position, so reassembly bumps the file and inserts a fresh
24-byte pad file; reparsing the emitted image yields three files and the
trees are not structurally equal. -/
theorem roundtrip_not_structural :
    parseFV cexC1 ≠ none ∧
    (pvOk (parseFV cexC1)).files.length = 2 ∧
    assembleFVFull (pvOk (parseFV cexC1)) ≠ none ∧
    parseFV ((assembleFVFull (pvOk (parseFV cexC1))).getD []) ≠ none ∧
    (pvOk (parseFV ((assembleFVFull (pvOk (parseFV cexC1))).getD []))).files.length = 3 ∧
    structEq (pvOk (parseFV cexC1))
      (pvOk (parseFV ((assembleFVFull (pvOk (parseFV cexC1))).getD []))) = false := by
  decide

theorem getD_lt_256 (data : List Nat) (hb : ∀ b ∈ data, b < 256) (i : Nat) :
    data.getD i 0 < 256 := by
  by_cases h : i < data.length
  · rw [List.getD_eq_getElem data 0 h]
    exact hb _ (List.getElem_mem h)
  · rw [List.getD_eq_default data 0 (le_of_not_lt h)]
    omega

theorem readLE_congr (a b : List Nat) (offa offb n : Nat)
    (h : ∀ i, i < n → a.getD (offa + i) 0 = b.getD (offb + i) 0) :
    readLE a offa n = readLE b offb n := by
  induction n generalizing offa offb with
  | zero => rfl
  | succ m ih =>
    simp only [readLE]
    rw [show a.getD offa 0 = b.getD offb 0 from by simpa using h 0 (by omega)]
    rw [ih (offa + 1) (offb + 1) fun i hi => by
      have h2 := h (i + 1) (by omega)
      rwa [show offa + (i + 1) = offa + 1 + i from by omega,
           show offb + (i + 1) = offb + 1 + i from by omega] at h2]

theorem readLE_lt (data : List Nat) (off n : Nat) (hb : ∀ b ∈ data, b < 256) :
    readLE data off n < 2 ^ (8 * n) := by
  induction n generalizing off with
  | zero => simp [readLE]
  | succ m ih =>
    simp only [readLE]
    have h1 := getD_lt_256 data hb off
    have h2 := ih (off + 1)
    have h3 : (2 : Nat) ^ (8 * (m + 1)) = 2 ^ (8 * m) * 256 := by
      rw [Nat.mul_succ, pow_add]
      norm_num
    omega

theorem set_getD_self (l : List Nat) (i : Nat) : l.set i (l.getD i 0) = l := by
  induction l generalizing i with
  | nil => rfl
  | cons x xs ih =>
    cases i with
    | zero => rfl
    | succ j => simpa [List.getD_cons_succ] using congrArg (x :: ·) (ih j)

theorem getD_set_ne (l : List Nat) (i x j : Nat) (h : i ≠ j) :
    (l.set i x).getD j 0 = l.getD j 0 := by
  induction l generalizing i j with
  | nil => rfl
  | cons a as ih =>
    cases i with
    | zero =>
      cases j with
      | zero => omega
      | succ jj => rfl
    | succ ii =>
      cases j with
      | zero => rfl
      | succ jj => simpa [List.getD_cons_succ] using ih ii jj (by omega)

theorem writeLE_self (b : List Nat) (off n : Nat)
    (hb : ∀ i, i < n → b.getD (off + i) 0 < 256) :
    writeLE b off n (readLE b off n) = b := by
  induction n generalizing b off with
  | zero => rfl
  | succ m ih =>
    simp only [writeLE, readLE]
    have h0 : b.getD off 0 < 256 := by simpa using hb 0 (by omega)
    rw [show (b.getD off 0 + 256 * readLE b (off + 1) m) % 256 = b.getD off 0 from by omega]
    rw [set_getD_self]
    rw [show (b.getD off 0 + 256 * readLE b (off + 1) m) / 256 = readLE b (off + 1) m from by
      omega]
    exact ih b (off + 1) fun i hi => by
      have h2 := hb (i + 1) (by omega)
      rwa [show off + (i + 1) = off + 1 + i from by omega] at h2

theorem writeLE_getD_outside (b : List Nat) (off n v j : Nat)
    (h : j < off ∨ off + n ≤ j) :
    (writeLE b off n v).getD j 0 = b.getD j 0 := by
  induction n generalizing b off v with
  | zero => rfl
  | succ m ih =>
    simp only [writeLE]
    rw [ih _ (off + 1) _ (by omega)]
    exact getD_set_ne b off (v % 256) j (by omega)

theorem set_append_left (A B : List Nat) (i x : Nat) (h : i < A.length) :
    (A ++ B).set i x = A.set i x ++ B := by
  induction A generalizing i with
  | nil => simp at h
  | cons a as ih =>
    cases i with
    | zero => rfl
    | succ j => simpa using congrArg (a :: ·) (ih j (by simpa using h))

theorem writeLE_append (A B : List Nat) (off n v : Nat) (h : off + n ≤ A.length) :
    writeLE (A ++ B) off n v = writeLE A off n v ++ B := by
  induction n generalizing A off v with
  | zero => rfl
  | succ m ih =>
    simp only [writeLE]
    rw [set_append_left A B off (v % 256) (by omega)]
    exact ih (A.set off (v % 256)) (off + 1) (v / 256) (by simp only [List.length_set]; omega)

theorem getD_drop (l : List Nat) (p i : Nat) : (l.drop p).getD i 0 = l.getD (p + i) 0 := by
  induction l generalizing p with
  | nil => simp
  | cons x xs ih =>
    cases p with
    | zero => simp
    | succ q => simpa [Nat.succ_add] using ih q

theorem getD_take (l : List Nat) (n i : Nat) (h : i < n) :
    (l.take n).getD i 0 = l.getD i 0 := by
  induction l generalizing n i with
  | nil => simp
  | cons x xs ih =>
    cases n with
    | zero => omega
    | succ m =>
      cases i with
      | zero => rfl
      | succ j => simpa [List.getD_cons_succ] using ih m j (by omega)

theorem take_set_of_le (l : List Nat) (i x n : Nat) (h : n ≤ i) :
    (l.set i x).take n = l.take n := by
  induction l generalizing i n with
  | nil => rfl
  | cons a as ih =>
    cases i with
    | zero =>
      cases n with
      | zero => rfl
      | succ m => omega
    | succ j =>
      cases n with
      | zero => rfl
      | succ m => simpa using congrArg (a :: ·) (ih j m (by omega))

theorem drop_set_of_lt (l : List Nat) (i x n : Nat) (h : i < n) :
    (l.set i x).drop n = l.drop n := by
  induction l generalizing i n with
  | nil => rfl
  | cons a as ih =>
    cases i with
    | zero =>
      cases n with
      | zero => omega
      | succ m => simp
    | succ j =>
      cases n with
      | zero => omega
      | succ m => simpa using ih j m (by omega)

theorem slice_eq_of_getD (a b : List Nat) (s n : Nat)
    (h : ∀ i, i < n → a.getD (s + i) 0 = b.getD (s + i) 0)
    (ha : s + n ≤ a.length) (hb : s + n ≤ b.length) :
    (a.drop s).take n = (b.drop s).take n := by
  apply List.ext_getElem
  · simp
    omega
  · intro i h1 h2
    have hia : i < n := by simp at h1; omega
    have hgd : (a.drop s).getD i 0 = (b.drop s).getD i 0 := by
      rw [getD_drop, getD_drop]
      exact h i hia
    have hla : i < (a.drop s).length := by simp; omega
    have hlb : i < (b.drop s).length := by simp; omega
    rw [List.getElem_take, List.getElem_take, ← List.getD_eq_getElem (a.drop s) 0 hla,
      ← List.getD_eq_getElem (b.drop s) 0 hlb]
    exact hgd

theorem isPolTail_replicate (pol m : Nat) : isPolTail pol (List.replicate m pol) = true := by
  simp [isPolTail]

theorem isPolTail_drop (pol : Nat) (l : List Nat) (k : Nat) (h : isPolTail pol l = true) :
    isPolTail pol (l.drop k) = true := by
  simp only [isPolTail, List.all_eq_true] at *
  intro b hb
  exact h b (List.mem_of_mem_drop hb)

theorem isPolTail_false_of_getD (pol : Nat) (l : List Nat) (i : Nat)
    (hi : i < l.length) (hne : l.getD i 0 ≠ pol) : isPolTail pol l = false := by
  rw [← Bool.not_eq_true]
  intro h
  simp only [isPolTail, List.all_eq_true] at h
  apply hne
  have hmem : l.getD i 0 ∈ l := by
    rw [List.getD_eq_getElem l 0 hi]
    exact List.getElem_mem hi
  simpa using h _ hmem

theorem xor7_undo (pol : Nat) : Nat.xor (Nat.xor 7 pol) pol = 7 := by
  show 7 ^^^ pol ^^^ pol = 7
  rw [Nat.xor_assoc, Nat.xor_self, Nat.xor_zero]

theorem xor7_ne (pol : Nat) : Nat.xor 7 pol ≠ pol := by
  intro h
  have h2 := xor7_undo pol
  rw [h] at h2
  have h3 : pol ^^^ pol = 7 := h2
  rw [Nat.xor_self] at h3
  omega

set_option maxHeartbeats 2000000 in
theorem parseOneFile_sound (pol : Nat) (buf : List Nat) (off : Nat) (f : PFile)
    (h : parseOneFile pol buf off = some f) :
    fileWF f ∧ 24 ≤ f.buf.length ∧ off + f.buf.length ≤ buf.length := by
  simp only [parseOneFile] at h
  split at h
  · exact absurd h (by simp)
  rename_i h24
  rcases hL : attrLargeFile (buf.getD (off + 19) 0) with _ | _
  · -- no large-file flag: 24-byte header, 24-bit size
    simp only [hL, Bool.false_eq_true, if_false] at h
    obtain ⟨S, hS⟩ : ∃ s, readLE buf (off + 20) 3 = s := ⟨_, rfl⟩
    rw [hS] at h
    split at h
    · exact absurd h (by simp)
    rename_i hhl
    split at h
    · exact absurd h (by simp)
    split at h
    · exact absurd h (by simp)
    rename_i hsz
    split at h
    · exact absurd h (by simp)
    rename_i hfit
    injection h with h
    subst h
    simp only [not_lt] at h24 hhl hsz hfit
    have hblen : ((buf.drop off).take S).length = S := by
      simp only [List.length_take, List.length_drop]
      omega
    have hgd : ∀ i, i < S →
        ((buf.drop off).take S).getD i 0 = buf.getD (off + i) 0 := by
      intro i hi
      rw [getD_take _ _ _ hi, getD_drop]
    refine ⟨⟨?_, ?_, hgd 19 (by omega), ?_, ?_⟩, ?_, ?_⟩
    · show (if attrLargeFile (buf.getD (off + 19) 0) then 32 else 24) ≤ _
      rw [hL, hblen]
      simp only [Bool.false_eq_true, if_false]
      omega
    · show (if attrLargeFile (buf.getD (off + 19) 0) then _ else
        readLE ((buf.drop off).take S) 20 3) = _
      rw [hL]
      simp only [Bool.false_eq_true, if_false]
      rw [hblen, readLE_congr _ buf 20 (off + 20) 3 fun i hi => by
        rw [show off + 20 + i = off + (20 + i) from by omega]
        exact hgd (20 + i) (by omega)]
      exact hS
    · show (buf.drop off).take 16 = _
      rw [List.take_take, Nat.min_eq_left (by omega)]
    · exact (hgd 18 (by omega)).symm
    · show 24 ≤ ((buf.drop off).take S).length
      rw [hblen]
      omega
    · show off + ((buf.drop off).take S).length ≤ buf.length
      rw [hblen]
      omega
  · -- large-file flag: 32-byte header, 8-byte extended size
    simp only [hL, eq_self_iff_true, if_true] at h
    obtain ⟨S, hS⟩ : ∃ s, readLE buf (off + 24) 8 = s := ⟨_, rfl⟩
    rw [hS] at h
    split at h
    · exact absurd h (by simp)
    rename_i hhl
    split at h
    · exact absurd h (by simp)
    split at h
    · exact absurd h (by simp)
    rename_i hsz
    split at h
    · exact absurd h (by simp)
    rename_i hfit
    injection h with h
    subst h
    simp only [not_lt] at h24 hhl hsz hfit
    have hblen : ((buf.drop off).take S).length = S := by
      simp only [List.length_take, List.length_drop]
      omega
    have hgd : ∀ i, i < S →
        ((buf.drop off).take S).getD i 0 = buf.getD (off + i) 0 := by
      intro i hi
      rw [getD_take _ _ _ hi, getD_drop]
    refine ⟨⟨?_, ?_, hgd 19 (by omega), ?_, ?_⟩, ?_, ?_⟩
    · show (if attrLargeFile (buf.getD (off + 19) 0) then 32 else 24) ≤ _
      rw [hL, hblen]
      simp only [if_true]
      omega
    · show (if attrLargeFile (buf.getD (off + 19) 0) then
        readLE ((buf.drop off).take S) 24 8 else _) = _
      rw [hL]
      simp only [if_true]
      rw [hblen, readLE_congr _ buf 24 (off + 24) 8 fun i hi => by
        rw [show off + 24 + i = off + (24 + i) from by omega]
        exact hgd (24 + i) (by omega)]
      exact hS
    · show (buf.drop off).take 16 = _
      rw [List.take_take, Nat.min_eq_left (by omega)]
    · exact (hgd 18 (by omega)).symm
    · show 24 ≤ ((buf.drop off).take S).length
      rw [hblen]
      omega
    · show off + ((buf.drop off).take S).length ≤ buf.length
      rw [hblen]
      omega

theorem parseFiles_sound (pol : Nat) (buf : List Nat) : ∀ fuel off fs,
    parseFiles pol buf off fuel = some fs →
    (∀ f ∈ fs, fileWF f) ∧
    (fs = [] ∨ (lastEnd off fs ≤ buf.length ∧ 24 * fs.length + off ≤ buf.length + 24)) := by
  intro fuel
  induction fuel with
  | zero =>
    intro off fs h
    exact absurd h (by simp [parseFiles])
  | succ m ih =>
    intro off fs h
    simp only [parseFiles] at h
    split at h
    · injection h with h
      subst h
      exact ⟨by simp, Or.inl rfl⟩
    · split at h
      · exact absurd h (by simp)
      rename_i f hf
      split at h
      · exact absurd h (by simp)
      rename_i fs' hfs
      injection h with h
      subst h
      obtain ⟨hwf, h24, hfit⟩ := parseOneFile_sound pol buf off f hf
      obtain ⟨ihwf, ihbound⟩ := ih (Align8 (off + f.buf.length)) fs' hfs
      have hstep : off + 24 ≤ Align8 (off + f.buf.length) := by
        have := Align_le (off + f.buf.length) 8
        unfold Align8 at *
        omega
      refine ⟨?_, Or.inr ⟨?_, ?_⟩⟩
      · intro g hg
        rcases List.mem_cons.mp hg with hg | hg
        · exact hg ▸ hwf
        · exact ihwf g hg
      · cases fs' with
        | nil => simpa [lastEnd] using hfit
        | cons g gs =>
          rcases ihbound with hnil | ⟨hle, _⟩
          · exact absurd hnil (by simp)
          · simpa [lastEnd] using hle
      · cases fs' with
        | nil =>
          simp only [List.length_cons, List.length_nil]
          omega
        | cons g gs =>
          rcases ihbound with hnil | ⟨_, hcnt⟩
          · exact absurd hnil (by simp)
          · simp only [List.length_cons] at hcnt ⊢
            omega

set_option maxHeartbeats 2000000 in
theorem parseFV_sound (data : List Nat) (p : ParsedFV) (h : parseFV data = some p) :
    64 ≤ data.length ∧
    p.header = parseFixedHeader data ∧
    readBlocks data 56 data.length = .ok p.blocks ∧
    p.dataOffset = Align8 (56 + 8 * (p.blocks.length + 1)) ∧
    p.polarity = GetErasePolarity p.header.attributes ∧
    p.buf = data.take p.header.length ∧
    p.header.length ≤ data.length ∧
    p.dataOffset ≤ p.header.length ∧
    parseFiles p.polarity p.buf p.dataOffset (data.length + 1) = some p.files := by
  unfold parseFV at h
  split at h
  · exact absurd h (by simp)
  rename_i h64
  split at h
  · exact absurd h (by simp)
  · exact absurd h (by simp)
  rename_i blocks hblocks
  split at h
  case isFalse => exact absurd h (by simp)
  case isTrue hchecks =>
  split at h
  · exact absurd h (by simp)
  rename_i fs hfs
  injection h with h
  subst h
  exact ⟨by omega, rfl, hblocks, rfl, rfl, rfl, hchecks.1, hchecks.2, hfs⟩

theorem Align_eq_self (x a : Nat) (h : x % a = 0) : Align x a = x := by
  unfold Align
  rw [if_pos h]

theorem newOffsetFor_self (p hl a : Nat) (h : (p + hl) % a = 0) :
    newOffsetFor p hl a = p := by
  unfold newOffsetFor
  rw [Align_eq_self _ _ h]
  have hz : p + hl - hl - p = 0 := by omega
  rw [hz, if_neg (by omega)]
  omega

theorem fileHeaderLen_ge (f : PFile) : 24 ≤ fileHeaderLen f := by
  unfold fileHeaderLen
  split <;> omega

theorem placeFiles_canonical (pol : Nat) : ∀ (fs : List PFile) (cursor : Nat),
    (∀ f ∈ fs, fileWF f) →
    filesCanonical (Align8 cursor) fs = true →
    ∃ fin, placeFiles pol cursor (fs.map (asmFileOf pol)) =
      some (placedOf pol (Align8 cursor) fs, fin) := by
  intro fs
  induction fs with
  | nil =>
    intro cursor _ _
    exact ⟨cursor, rfl⟩
  | cons f fs ih =>
    intro cursor hwf hcan
    simp only [filesCanonical, Bool.and_eq_true] at hcan
    obtain ⟨hcf, hcrest⟩ := hcan
    obtain ⟨hhl, _, _, _, _⟩ := hwf f (by simp)
    have h24 : 24 ≤ f.buf.length := le_trans (fileHeaderLen_ge f) hhl
    have hplace1 : placeOne pol cursor (asmFileOf pol f) =
        some ([⟨Align8 cursor, f.buf.set 23 (Nat.xor 7 pol), false⟩],
          Align8 cursor + f.buf.length) := by
      unfold placeOne
      rw [if_neg (by simp only [asmFileOf, List.length_set]; omega)]
      by_cases ha1 : GetAlignment (asmFileOf pol f).alignIdx = 1
      · rw [if_pos ha1]
        simp [asmFileOf]
      · rw [if_neg ha1]
        have hc : (Align8 cursor + fileHeaderLen f) %
            GetAlignment (attrAlignIdx f.fattrs) = 0 := by
          rcases Bool.or_eq_true _ _ |>.mp hcf with hx | hx
          · exact absurd (eq_of_beq hx) ha1
          · exact eq_of_beq hx
        have hc' : (Align8 cursor + (asmFileOf pol f).headerLen) %
            GetAlignment (asmFileOf pol f).alignIdx = 0 := hc
        rw [newOffsetFor_self _ _ _ hc', if_neg (by simp)]
        simp [asmFileOf]
    obtain ⟨fin, hrest⟩ := ih (Align8 cursor + f.buf.length) (fun g hg => hwf g (by simp [hg]))
      (by simpa using hcrest)
    refine ⟨fin, ?_⟩
    simp only [List.map_cons, placeFiles, hplace1, hrest, placedOf]
    rfl

theorem insertAt_append (pol : Nat) (base data : List Nat) (off : Nat)
    (h : base.length ≤ off) :
    insertAt pol base off data =
      base ++ (List.replicate (off - base.length) pol ++ data) := by
  unfold insertAt
  rw [List.take_of_length_le (by simp; omega)]
  simp [List.append_assoc]

theorem renderPlaced_cons (pol : Nat) (base : List Nat) (q : Placed) (ps : List Placed) :
    renderPlaced pol base (q :: ps) = renderPlaced pol (insertAt pol base q.offset q.buf) ps :=
  rfl

theorem renderPlaced_seg (pol : Nat) : ∀ (fs : List PFile) (f : PFile) (p : Nat)
    (base : List Nat), base.length ≤ p →
    renderPlaced pol base (placedOf pol p (f :: fs)) =
      base ++ (List.replicate (p - base.length) pol ++ segOf pol p (f :: fs)) := by
  intro fs
  induction fs with
  | nil =>
    intro f p base hle
    simp only [placedOf, segOf]
    show renderPlaced pol (insertAt pol base p (f.buf.set 23 (Nat.xor 7 pol))) [] = _
    show insertAt pol base p (f.buf.set 23 (Nat.xor 7 pol)) = _
    exact insertAt_append pol base _ p hle
  | cons g gs ih =>
    intro f p base hle
    simp only [placedOf]
    rw [renderPlaced_cons]
    show renderPlaced pol (insertAt pol base p (f.buf.set 23 (Nat.xor 7 pol)))
      (placedOf pol (Align8 (p + f.buf.length)) (g :: gs)) = _
    rw [insertAt_append pol base _ p hle]
    have hlen2 : (base ++ (List.replicate (p - base.length) pol ++
        f.buf.set 23 (Nat.xor 7 pol))).length = p + f.buf.length := by
      simp
      omega
    rw [ih g (Align8 (p + f.buf.length)) _ (by rw [hlen2]; exact Align_le _ 8), hlen2]
    simp only [segOf, List.append_assoc]

theorem segOf_length (pol : Nat) : ∀ (fs : List PFile) (p : Nat),
    p + (segOf pol p fs).length = lastEnd p fs
  | [], p => by simp [segOf, lastEnd]
  | [f], p => by simp [segOf, lastEnd]
  | f :: g :: gs, p => by
    have ih := segOf_length pol (g :: gs) (Align8 (p + f.buf.length))
    have ha := Align_le (p + f.buf.length) 8
    simp only [segOf, lastEnd, List.length_append, List.length_replicate, List.length_set]
    unfold Align8 at *
    omega

theorem getD_set_self (l : List Nat) (i x : Nat) (h : i < l.length) :
    (l.set i x).getD i 0 = x := by
  rw [List.getD_eq_getElem _ 0 (by simpa using h)]
  simp [List.getElem_set, h]

theorem Align_idem (x a : Nat) (ha : 0 < a) : Align (Align x a) a = Align x a :=
  Align_eq_self _ _ (Align_mod x a ha)

theorem readLE_lt_of_getD (data : List Nat) : ∀ (n off : Nat),
    (∀ i, i < n → data.getD (off + i) 0 < 256) → readLE data off n < 2 ^ (8 * n) := by
  intro n
  induction n with
  | zero => intro off _; simp [readLE]
  | succ m ih =>
    intro off hb
    simp only [readLE]
    have h1 : data.getD off 0 < 256 := by simpa using hb 0 (by omega)
    have h2 := ih (off + 1) fun i hi => by
      have := hb (1 + i) (by omega)
      rwa [show off + (1 + i) = off + 1 + i from by omega] at this
    have h3 : (2 : Nat) ^ (8 * (m + 1)) = 2 ^ (8 * m) * 256 := by ring
    rw [h3]
    omega

theorem readBlocks_head (data : List Nat) (fuel off c s : Nat)
    (rest : List (Nat × Nat))
    (h : readBlocks data off fuel = .ok ((c, s) :: rest)) :
    c = readLE data off 4 ∧ s = readLE data (off + 4) 4 ∧ off + 8 ≤ data.length := by
  cases fuel with
  | zero => exact absurd h (by simp [readBlocks])
  | succ m =>
    simp only [readBlocks] at h
    split at h
    · exact absurd h (by simp)
    rename_i hlen
    split at h
    · simp at h
    · split at h
      · rename_i bs hbs
        rw [GoResult.ok.injEq, List.cons.injEq, Prod.mk.injEq] at h
        exact ⟨h.1.1.symm, h.1.2.symm, by omega⟩
      · exact absurd h (by simp)
      · exact absurd h (by simp)

theorem readBlocks_congr (a b : List Nat) : ∀ (fuel1 off : Nat) (bs : List (Nat × Nat)),
    readBlocks a off fuel1 = .ok bs →
    (∀ j, off ≤ j → j < off + 8 * (bs.length + 1) → b.getD j 0 = a.getD j 0) →
    off + 8 * (bs.length + 1) ≤ b.length →
    ∀ fuel2, bs.length < fuel2 → readBlocks b off fuel2 = .ok bs := by
  intro fuel1
  induction fuel1 with
  | zero =>
    intro off bs h
    exact absurd h (by simp [readBlocks])
  | succ m ih =>
    intro off bs h hagree hlen fuel2 hf2
    cases fuel2 with
    | zero => omega
    | succ k =>
      simp only [readBlocks] at h ⊢
      split at h
      · exact absurd h (by simp)
      rename_i hlena
      rw [if_neg (by omega)]
      have hc : readLE b off 4 = readLE a off 4 :=
        readLE_congr b a off off 4 fun i hi => hagree (off + i) (by omega) (by omega)
      have hs : readLE b (off + 4) 4 = readLE a (off + 4) 4 :=
        readLE_congr b a (off + 4) (off + 4) 4 fun i hi =>
          hagree (off + 4 + i) (by omega) (by omega)
      rw [hc, hs]
      split at h
      · rename_i hz
        rw [if_pos hz]
        rw [GoResult.ok.injEq] at h
        rw [h]
      · rename_i hz
        rw [if_neg hz]
        split at h
        · rename_i bs' hbs'
          rw [GoResult.ok.injEq] at h
          have hrec := ih (off + 8) bs' hbs'
            (fun j hj1 hj2 => hagree j (by omega) (by rw [← h]; simp; omega))
            (by rw [← h] at hlen; simp at hlen; omega) k (by rw [← h] at hf2; simp at hf2; omega)
          rw [hrec, ← h]
        · exact absurd h (by simp)
        · exact absurd h (by simp)

theorem fvTailPad_eq (pol flen : Nat) (buf : List Nat) (h : buf.length ≤ flen) :
    fvTailPad pol flen buf = buf ++ List.replicate (flen - buf.length) pol := by
  unfold fvTailPad
  split
  · rfl
  · rename_i hge
    rw [show flen - buf.length = 0 from by omega]
    simp

theorem patchFVHeader_inv (buf : List Nat) (headerLen flen count : Nat)
    (out : List Nat)
    (h : patchFVHeader buf headerLen flen count = some out)
    (hflen : readLE buf 32 8 = flen)
    (hcount : readLE buf 56 4 = count)
    (hb32 : ∀ i, i < 8 → buf.getD (32 + i) 0 < 256)
    (hb56 : ∀ i, i < 4 → buf.getD (56 + i) 0 < 256) :
    ∃ V, out = writeLE (writeLE buf 50 2 0) 50 2 V ∧ out.length = buf.length := by
  have hfl : flen % 2 ^ 64 = flen := by
    rw [← hflen]
    exact Nat.mod_eq_of_lt (readLE_lt_of_getD buf 8 32 hb32)
  have hct : count % 2 ^ 32 = count := by
    rw [← hcount]
    exact Nat.mod_eq_of_lt (readLE_lt_of_getD buf 4 56 hb56)
  unfold patchFVHeader at h
  split at h
  · exact absurd h (by simp)
  rename_i b1 hb1
  unfold putLE at hb1
  split at hb1
  case isFalse => exact absurd hb1 (by simp)
  rename_i hlen1
  rw [Option.some.injEq] at hb1
  have hb1e : b1 = buf := by
    rw [← hb1, hfl, ← hflen]
    exact writeLE_self buf 32 8 hb32
  rw [hb1e] at h
  split at h
  · exact absurd h (by simp)
  rename_i b2 hb2
  unfold putLE at hb2
  split at hb2
  case isFalse => exact absurd hb2 (by simp)
  rename_i hlen2
  rw [Option.some.injEq] at hb2
  have hb2e : b2 = buf := by
    rw [← hb2, hct, ← hcount]
    exact writeLE_self buf 56 4 hb56
  rw [hb2e] at h
  split at h
  · exact absurd h (by simp)
  rename_i b3 hb3
  unfold putLE at hb3
  split at hb3
  case isFalse => exact absurd hb3 (by simp)
  rename_i hlen3
  rw [Option.some.injEq] at hb3
  split at h
  case isFalse => exact absurd h (by simp)
  rename_i hhl
  split at h
  · exact absurd h (by simp)
  rename_i sum hsum
  unfold putLE at h
  split at h
  case isFalse => exact absurd h (by simp)
  rename_i hlen4
  rw [Option.some.injEq] at h
  refine ⟨(65536 - sum) % 65536, ?_, ?_⟩
  · rw [← h, ← hb3]
  · rw [← h, writeLE_length, ← hb3, writeLE_length]

theorem segTotal_not_polTail (pol p : Nat) (f : PFile) (pre rest : List Nat)
    (hp : pre.length = p) (h24 : 24 ≤ f.buf.length) :
    isPolTail pol ((pre ++ (f.buf.set 23 (Nat.xor 7 pol) ++ rest)).drop p) = false := by
  rw [drop_append_ge _ _ p (by omega), hp, Nat.sub_self, List.drop_zero]
  apply isPolTail_false_of_getD pol _ 23
  · simp
    omega
  · rw [List.getD_append _ _ 0 23 (by simp; omega),
      getD_set_self f.buf 23 _ (by omega)]
    exact xor7_ne pol

theorem parseOneFile_seg (pol : Nat) (f : PFile) (pre rest : List Nat) (p : Nat)
    (hp : pre.length = p) (hwf : fileWF f) :
    parseOneFile pol (pre ++ (f.buf.set 23 (Nat.xor 7 pol) ++ rest)) p =
      some (reState pol f) := by
  obtain ⟨hhl, hsize, hattr, huuid, htype⟩ := hwf
  have h24 : 24 ≤ f.buf.length := le_trans (fileHeaderLen_ge f) hhl
  have hdrop : (pre ++ (f.buf.set 23 (Nat.xor 7 pol) ++ rest)).drop p =
      f.buf.set 23 (Nat.xor 7 pol) ++ rest := by
    rw [drop_append_ge _ _ p (by omega), hp, Nat.sub_self, List.drop_zero]
  have hget : ∀ i, i < f.buf.length → i ≠ 23 →
      (pre ++ (f.buf.set 23 (Nat.xor 7 pol) ++ rest)).getD (p + i) 0 = f.buf.getD i 0 := by
    intro i hi hne
    rw [← getD_drop _ p i, hdrop, List.getD_append _ _ 0 i (by simp; omega),
      getD_set_ne f.buf 23 _ i (by omega)]
  have hlen : (pre ++ (f.buf.set 23 (Nat.xor 7 pol) ++ rest)).length =
      p + f.buf.length + rest.length := by
    simp
    omega
  have hb19 : (pre ++ (f.buf.set 23 (Nat.xor 7 pol) ++ rest)).getD (p + 19) 0 = f.fattrs := by
    rw [hget 19 (by omega) (by omega), hattr]
  have hb23 : (pre ++ (f.buf.set 23 (Nat.xor 7 pol) ++ rest)).getD (p + 23) 0 =
      Nat.xor 7 pol := by
    rw [← getD_drop _ p 23, hdrop, List.getD_append _ _ 0 23 (by simp; omega),
      getD_set_self f.buf 23 _ (by omega)]
  have hb18 : (pre ++ (f.buf.set 23 (Nat.xor 7 pol) ++ rest)).getD (p + 18) 0 = f.ftype := by
    rw [hget 18 (by omega) (by omega), htype]
  have hhl' : fileHeaderLen f ≤ f.buf.length := hhl
  unfold fileHeaderLen at hhl'
  have hszeq : (if attrLargeFile f.fattrs
      then readLE (pre ++ (f.buf.set 23 (Nat.xor 7 pol) ++ rest)) (p + 24) 8
      else readLE (pre ++ (f.buf.set 23 (Nat.xor 7 pol) ++ rest)) (p + 20) 3) =
      f.buf.length := by
    split
    · rename_i hL
      rw [if_pos hL] at hsize
      rw [if_pos hL] at hhl'
      rw [← hsize]
      exact readLE_congr _ _ (p + 24) 24 8 fun i hi => by
        rw [show p + 24 + i = p + (24 + i) from by omega]
        exact hget (24 + i) (by omega) (by omega)
    · rename_i hL
      rw [if_neg hL] at hsize
      rw [if_neg hL] at hhl'
      rw [← hsize]
      exact readLE_congr _ _ (p + 20) 20 3 fun i hi => by
        rw [show p + 20 + i = p + (20 + i) from by omega]
        exact hget (20 + i) (by omega) (by omega)
  unfold parseOneFile
  rw [if_neg (by omega)]
  simp only [hb19, hb23, hszeq]
  rw [show (if attrLargeFile f.fattrs then 32 else 24) = fileHeaderLen f from rfl]
  rw [if_neg (by omega)]
  rw [xor7_undo]
  rw [if_neg (by omega)]
  rw [if_neg (by omega)]
  rw [if_neg (by omega)]
  rw [hdrop]
  rw [Option.some.injEq]
  unfold reState
  have huuid2 : (f.buf.set 23 (Nat.xor 7 pol) ++ rest).take 16 = f.uuid := by
    rw [List.take_append_eq_append_take,
      show 16 - (f.buf.set 23 (Nat.xor 7 pol)).length = 0 from by simp; omega,
      List.take_zero, List.append_nil, take_set_of_le f.buf 23 _ 16 (by omega), huuid]
  have hint : readLE (pre ++ (f.buf.set 23 (Nat.xor 7 pol) ++ rest)) (p + 16) 2 =
      readLE f.buf 16 2 :=
    readLE_congr _ _ (p + 16) 16 2 fun i hi => by
      rw [show p + 16 + i = p + (16 + i) from by omega]
      exact hget (16 + i) (by omega) (by omega)
  have hbuf2 : (f.buf.set 23 (Nat.xor 7 pol) ++ rest).take f.buf.length =
      f.buf.set 23 (Nat.xor 7 pol) := by
    rw [show f.buf.length = (f.buf.set 23 (Nat.xor 7 pol)).length from by simp,
      List.take_left]
  rw [huuid2, hint, hb18, hbuf2]

theorem parseFiles_seg (pol : Nat) : ∀ (fs : List PFile) (p : Nat) (pre tail : List Nat)
    (fuel : Nat),
    pre.length = p →
    (∀ f ∈ fs, fileWF f) →
    isPolTail pol tail = true →
    fs.length < fuel →
    parseFiles pol (pre ++ (segOf pol p fs ++ tail)) p fuel =
      some (fs.map (reState pol)) := by
  intro fs
  induction fs with
  | nil =>
    intro p pre tail fuel hp _ htail hfuel
    cases fuel with
    | zero => exact absurd hfuel (Nat.not_lt_zero _)
    | succ k =>
      show parseFiles pol (pre ++ ([] ++ tail)) p (k + 1) = some []
      rw [List.nil_append]
      have h1 : isPolTail pol ((pre ++ tail).drop p) = true := by
        rw [drop_append_ge _ _ p (by omega), hp, Nat.sub_self, List.drop_zero]
        exact htail
      simp only [parseFiles]
      rw [if_pos h1]
  | cons f fs ih =>
    intro p pre tail fuel hp hwf htail hfuel
    cases fuel with
    | zero => exact absurd hfuel (Nat.not_lt_zero _)
    | succ k =>
      have hwff := hwf f (by simp)
      have h24 : 24 ≤ f.buf.length := le_trans (fileHeaderLen_ge f) hwff.1
      cases fs with
      | nil =>
        show parseFiles pol (pre ++ (f.buf.set 23 (Nat.xor 7 pol) ++ tail)) p (k + 1) =
          some ([f].map (reState pol))
        have h1 := segTotal_not_polTail pol p f pre tail hp h24
        have h2 := parseOneFile_seg pol f pre tail p hp hwff
        have hk : 1 ≤ k := by
          simp only [List.length_cons, List.length_nil] at hfuel
          omega
        have h3 : parseFiles pol (pre ++ (f.buf.set 23 (Nat.xor 7 pol) ++ tail))
            (Align8 (p + f.buf.length)) k = some [] := by
          cases k with
          | zero => omega
          | succ k0 =>
            have hA := Align_le (p + f.buf.length) 8
            have hc : isPolTail pol
                ((pre ++ (f.buf.set 23 (Nat.xor 7 pol) ++ tail)).drop
                  (Align8 (p + f.buf.length))) = true := by
              rw [show pre ++ (f.buf.set 23 (Nat.xor 7 pol) ++ tail) =
                  (pre ++ f.buf.set 23 (Nat.xor 7 pol)) ++ tail from by
                simp [List.append_assoc]]
              rw [drop_append_ge _ _ _ (by simp; unfold Align8; omega)]
              exact isPolTail_drop pol tail _ htail
            simp only [parseFiles]
            rw [if_pos hc]
        simp only [parseFiles, h1, Bool.false_eq_true, if_false, h2, reState,
          List.length_set, h3, List.map_cons, List.map_nil]
      | cons g gs =>
        have hassoc : pre ++ (segOf pol p (f :: g :: gs) ++ tail) =
            pre ++ (f.buf.set 23 (Nat.xor 7 pol) ++
              ((List.replicate (Align8 (p + f.buf.length) - (p + f.buf.length)) pol ++
                segOf pol (Align8 (p + f.buf.length)) (g :: gs)) ++ tail)) := by
          simp only [segOf, List.append_assoc]
        rw [hassoc]
        have h1 := segTotal_not_polTail pol p f pre
          ((List.replicate (Align8 (p + f.buf.length) - (p + f.buf.length)) pol ++
            segOf pol (Align8 (p + f.buf.length)) (g :: gs)) ++ tail) hp h24
        have h2 := parseOneFile_seg pol f pre
          ((List.replicate (Align8 (p + f.buf.length) - (p + f.buf.length)) pol ++
            segOf pol (Align8 (p + f.buf.length)) (g :: gs)) ++ tail) p hp hwff
        have hA := Align_le (p + f.buf.length) 8
        have hrec := ih (Align8 (p + f.buf.length))
          (pre ++ f.buf.set 23 (Nat.xor 7 pol) ++
            List.replicate (Align8 (p + f.buf.length) - (p + f.buf.length)) pol)
          tail k
          (by simp; unfold Align8; omega)
          (fun x hx => hwf x (by simp [hx]))
          htail
          (by simp only [List.length_cons] at hfuel ⊢; omega)
        rw [show (pre ++ f.buf.set 23 (Nat.xor 7 pol) ++
            List.replicate (Align8 (p + f.buf.length) - (p + f.buf.length)) pol) ++
            (segOf pol (Align8 (p + f.buf.length)) (g :: gs) ++ tail) =
            pre ++ (f.buf.set 23 (Nat.xor 7 pol) ++
              ((List.replicate (Align8 (p + f.buf.length) - (p + f.buf.length)) pol ++
                segOf pol (Align8 (p + f.buf.length)) (g :: gs)) ++ tail)) from by
          simp [List.append_assoc]] at hrec
        simp only [parseFiles, h1, Bool.false_eq_true, if_false, h2, reState,
          List.length_set, hrec, List.map_cons]

theorem assembleFV_inv (L D H P : Nat) (B : List (Nat × Nat)) (F : List AsmFile)
    (buf out : List Nat)
    (h : assembleFV ⟨L, D, H, P, B, F, buf⟩ = some out) (hne : F ≠ []) :
    buf.length ≤ L ∧ D = buf.length ∧
    ∃ placed fin flen blocks,
      placeFiles P D F = some (placed, fin) ∧
      resizeFV L B (renderPlaced P buf placed).length = some (flen, blocks) ∧
      patchFVHeader (fvTailPad P flen (renderPlaced P buf placed)) H flen
        (blocks.headD (0, 0)).1 = some out := by
  unfold assembleFV at h
  dsimp only at h
  rw [if_neg hne] at h
  split at h
  · exact absurd h (by simp)
  rename_i hg1
  split at h
  · exact absurd h (by simp)
  rename_i hg2
  split at h
  · exact absurd h (by simp)
  rename_i placed fin hpl
  split at h
  · exact absurd h (by simp)
  rename_i flen blocks hrs
  exact ⟨by omega, by omega, placed, fin, flen, blocks, hpl, hrs, h⟩

theorem zip_map_reState_all (pol : Nat) (fs : List PFile) :
    ((fs.zip (fs.map (reState pol))).all fun fg =>
      (fg.1.uuid == fg.2.uuid) && (fg.1.ftype == fg.2.ftype) &&
      (fg.1.buf.drop 24 == fg.2.buf.drop 24)) = true := by
  induction fs with
  | nil => rfl
  | cons f fs ih =>
    simp only [List.map_cons, List.zip_cons_cons, List.all_cons, ih, Bool.and_true]
    simp only [reState]
    rw [drop_set_of_lt f.buf 23 _ 24 (by omega)]
    simp

set_option maxHeartbeats 2000000 in
/-- C1 (amended): round trip through the volume codec, for canonically
aligned volumes.  For any byte image `data` that parses to a volume `p`
with at least one file, all of whose files already satisfy their declared
data alignment at the positions the parser found them
(`filesCanonical`), if the `Assemble` pass on `p` succeeds with output
`out`, then `out` parses again, and the reparse is structurally equal to
`p`: the same volume filesystem GUID and the same number of files with
identical UUIDs, types, and payloads (the bytes after the fixed file
header).  Bitwise equality of `data` and `out` is not required (the
checksum and `State` bytes are rewritten). -/
theorem roundtrip_amended (data : List Nat) (p : ParsedFV) (out : List Nat)
    (hbytes : ∀ b ∈ data, b < 256)
    (hp : parseFV data = some p)
    (hne : p.files ≠ [])
    (hcanon : filesCanonical p.dataOffset p.files = true)
    (ha : assembleFVFull p = some out) :
    parseFV out ≠ none ∧ structEq p (pvOk (parseFV out)) = true := by
  obtain ⟨h64, hhdr, hblocks, hdOff, hpol, hbuf, hlenle, hdle, hfiles⟩ := parseFV_sound data p hp
  have hplen : p.buf.length = p.header.length := by
    rw [hbuf, List.length_take]
    omega
  have hd64 : 64 ≤ p.dataOffset := by
    rw [hdOff]
    have h1 := Align_le (56 + 8 * (p.blocks.length + 1)) 8
    unfold Align8
    omega
  have hdmod : p.dataOffset % 8 = 0 := by
    rw [hdOff]
    unfold Align8
    exact Align_mod _ 8 (by omega)
  have hdalign : Align8 p.dataOffset = p.dataOffset := by
    unfold Align8
    exact Align_eq_self _ _ hdmod
  have hsound := parseFiles_sound p.polarity p.buf (data.length + 1) p.dataOffset p.files hfiles
  have hwf : ∀ f ∈ p.files, fileWF f := hsound.1
  have hlast : lastEnd p.dataOffset p.files ≤ p.buf.length ∧
      24 * p.files.length + p.dataOffset ≤ p.buf.length + 24 := by
    rcases hsound.2 with h | h
    · exact absurd h hne
    · exact h
  obtain ⟨f0, fsrest, hfs⟩ : ∃ a l, p.files = a :: l := by
    cases hc : p.files with
    | nil => exact absurd hc hne
    | cons a l => exact ⟨a, l, rfl⟩
  have hfvne : p.files.map (asmFileOf p.polarity) ≠ [] := by
    rw [hfs]
    simp
  have ha' : assembleFV ⟨p.header.length, p.dataOffset, p.header.headerLen, p.polarity,
      p.blocks, p.files.map (asmFileOf p.polarity), p.buf.take p.dataOffset⟩ = some out := ha
  obtain ⟨hg1, hg2, placed, fin, flen, blocks2, hpl, hrs, hpatch⟩ :=
    assembleFV_inv _ _ _ _ _ _ _ _ ha' hfvne
  have hfvlen : (p.buf.take p.dataOffset).length = p.dataOffset := by
    rw [List.length_take]
    omega
  obtain ⟨fin2, hpl2⟩ := placeFiles_canonical p.polarity p.files p.dataOffset hwf
    (by rw [hdalign]; exact hcanon)
  rw [hdalign] at hpl2
  rw [hpl] at hpl2
  rw [Option.some.injEq, Prod.mk.injEq] at hpl2
  obtain ⟨hpe, _⟩ := hpl2
  subst hpe
  have hrender : renderPlaced p.polarity (p.buf.take p.dataOffset)
      (placedOf p.polarity p.dataOffset p.files) =
      p.buf.take p.dataOffset ++ segOf p.polarity p.dataOffset p.files := by
    rw [hfs]
    rw [renderPlaced_seg p.polarity fsrest f0 p.dataOffset _ (le_of_eq hfvlen)]
    rw [hfvlen, Nat.sub_self]
    simp
  have hseglen : p.dataOffset + (segOf p.polarity p.dataOffset p.files).length =
      lastEnd p.dataOffset p.files := segOf_length p.polarity p.files p.dataOffset
  have hRlen : (p.buf.take p.dataOffset ++ segOf p.polarity p.dataOffset p.files).length =
      lastEnd p.dataOffset p.files := by
    rw [List.length_append, hfvlen]
    exact hseglen
  have hlastle : lastEnd p.dataOffset p.files ≤ p.header.length := by
    rw [← hplen]
    exact hlast.1
  rw [hrender] at hrs hpatch
  obtain ⟨c, s, brest, hbl⟩ : ∃ c s l, p.blocks = (c, s) :: l := by
    cases hc : p.blocks with
    | nil =>
      rw [hc] at hrs
      exact absurd hrs (by simp [resizeFV])
    | cons b l => exact ⟨b.1, b.2, l, by rw [Prod.mk.eta]⟩
  rw [hbl, hRlen] at hrs
  simp only [resizeFV] at hrs
  rw [if_neg (by omega)] at hrs
  rw [Option.some.injEq, Prod.mk.injEq] at hrs
  obtain ⟨hfleq, hbleq⟩ := hrs
  subst hfleq
  subst hbleq
  simp only [List.headD_cons] at hpatch
  rw [fvTailPad_eq p.polarity p.header.length _ (by rw [hRlen]; exact hlastle)] at hpatch
  rw [hRlen] at hpatch
  rw [List.append_assoc] at hpatch
  have hbuf0get : ∀ j, j < p.dataOffset →
      (p.buf.take p.dataOffset ++ (segOf p.polarity p.dataOffset p.files ++
        List.replicate (p.header.length - lastEnd p.dataOffset p.files) p.polarity)).getD
          j 0 = data.getD j 0 := by
    intro j hj
    rw [List.getD_append _ _ 0 j (by rw [hfvlen]; omega)]
    rw [getD_take _ _ _ hj]
    rw [hbuf]
    rw [getD_take _ _ _ (by omega)]
  have hb0len : (p.buf.take p.dataOffset ++ (segOf p.polarity p.dataOffset p.files ++
      List.replicate (p.header.length - lastEnd p.dataOffset p.files) p.polarity)).length =
      p.header.length := by
    rw [List.length_append, List.length_append, List.length_replicate, hfvlen]
    omega
  have hflen0 : readLE (p.buf.take p.dataOffset ++ (segOf p.polarity p.dataOffset p.files ++
      List.replicate (p.header.length - lastEnd p.dataOffset p.files) p.polarity)) 32 8 =
      p.header.length := by
    rw [readLE_congr _ data 32 32 8 fun i hi => hbuf0get (32 + i) (by omega)]
    rw [hhdr]
    rfl
  have hcount0 : readLE (p.buf.take p.dataOffset ++ (segOf p.polarity p.dataOffset p.files ++
      List.replicate (p.header.length - lastEnd p.dataOffset p.files) p.polarity)) 56 4 =
      c := by
    have hrbh := readBlocks_head data data.length 56 c s brest (by rw [← hbl]; exact hblocks)
    rw [readLE_congr _ data 56 56 4 fun i hi => hbuf0get (56 + i) (by omega)]
    exact hrbh.1.symm
  obtain ⟨V, hout, houtlen⟩ := patchFVHeader_inv _ _ _ _ _ hpatch hflen0 hcount0
    (fun i hi => by
      rw [hbuf0get (32 + i) (by omega)]
      exact getD_lt_256 data hbytes _)
    (fun i hi => by
      rw [hbuf0get (56 + i) (by omega)]
      exact getD_lt_256 data hbytes _)
  have houtlen2 : out.length = p.header.length := by
    rw [houtlen, hb0len]
  have hagree : ∀ j, j ≠ 50 → j ≠ 51 → j < p.dataOffset → out.getD j 0 = data.getD j 0 := by
    intro j h50 h51 hj
    rw [hout, writeLE_getD_outside _ _ _ _ _ (by omega),
      writeLE_getD_outside _ _ _ _ _ (by omega), hbuf0get j hj]
  have hout2 : out = writeLE (writeLE (p.buf.take p.dataOffset) 50 2 0) 50 2 V ++
      (segOf p.polarity p.dataOffset p.files ++
        List.replicate (p.header.length - lastEnd p.dataOffset p.files) p.polarity) := by
    rw [hout, writeLE_append _ _ 50 2 0 (by rw [hfvlen]; omega),
      writeLE_append _ _ 50 2 V (by rw [writeLE_length, hfvlen]; omega)]
  have hprelen : (writeLE (writeLE (p.buf.take p.dataOffset) 50 2 0) 50 2 V).length =
      p.dataOffset := by
    rw [writeLE_length, writeLE_length, hfvlen]
  have hfuel' : p.files.length < out.length + 1 := by
    have h2 := hlast.2
    rw [hplen] at h2
    omega
  have hfs_out : parseFiles p.polarity out p.dataOffset (out.length + 1) =
      some (p.files.map (reState p.polarity)) := by
    have hx := parseFiles_seg p.polarity p.files p.dataOffset
      (writeLE (writeLE (p.buf.take p.dataOffset) 50 2 0) 50 2 V)
      (List.replicate (p.header.length - lastEnd p.dataOffset p.files) p.polarity)
      (out.length + 1) hprelen hwf (isPolTail_replicate p.polarity _) hfuel'
    rw [← hout2] at hx
    exact hx
  have hlen_out_hdr : (parseFixedHeader out).length = p.header.length := by
    show readLE out 32 8 = p.header.length
    rw [readLE_congr out data 32 32 8 fun i hi =>
      hagree (32 + i) (by omega) (by omega) (by omega), hhdr]
    rfl
  have hattrs_out : (parseFixedHeader out).attributes = p.header.attributes := by
    show readLE out 44 4 = p.header.attributes
    rw [readLE_congr out data 44 44 4 fun i hi =>
      hagree (44 + i) (by omega) (by omega) (by omega), hhdr]
    rfl
  have hguid_out : (parseFixedHeader out).fileSystemGUID = p.header.fileSystemGUID := by
    show (out.drop 16).take 16 = p.header.fileSystemGUID
    rw [slice_eq_of_getD out data 16 16
      (fun i hi => hagree (16 + i) (by omega) (by omega) (by omega))
      (by omega) (by omega), hhdr]
    rfl
  have htake_out : out.take (parseFixedHeader out).length = out := by
    rw [hlen_out_hdr, ← houtlen2, List.take_length]
  have hfs_out' : parseFiles (GetErasePolarity (parseFixedHeader out).attributes)
      (out.take (parseFixedHeader out).length)
      (Align8 (56 + 8 * (p.blocks.length + 1))) (out.length + 1) =
      some (p.files.map (reState p.polarity)) := by
    rw [hattrs_out, ← hpol, htake_out, ← hdOff]
    exact hfs_out
  have hdle8 : 56 + 8 * (p.blocks.length + 1) ≤ p.dataOffset := by
    rw [hdOff]
    unfold Align8
    exact Align_le _ 8
  have hblocks_out : readBlocks out 56 out.length = .ok p.blocks :=
    readBlocks_congr data out data.length 56 p.blocks hblocks
      (fun j hj1 hj2 => hagree j (by omega) (by omega) (by omega))
      (by omega) out.length (by omega)
  have h64f : (out.length < 64) = False := eq_false (by omega)
  have hguardT : ((parseFixedHeader out).length ≤ out.length ∧
      Align8 (56 + 8 * (p.blocks.length + 1)) ≤ (parseFixedHeader out).length) = True :=
    eq_true ⟨by rw [hlen_out_hdr]; omega, by rw [hlen_out_hdr, ← hdOff]; exact hdle⟩
  have hpv : parseFV out = some ⟨parseFixedHeader out, p.blocks,
      Align8 (56 + 8 * (p.blocks.length + 1)),
      GetErasePolarity (parseFixedHeader out).attributes,
      p.files.map (reState p.polarity),
      out.take (parseFixedHeader out).length⟩ := by
    simp only [parseFV, h64f, if_false, hblocks_out, hguardT, if_true, hfs_out']
  refine ⟨by rw [hpv]; simp, ?_⟩
  rw [hpv]
  simp only [pvOk, Option.getD_some]
  simp only [structEq, hguid_out, beq_self_eq_true, List.length_map, Bool.true_and]
  exact zip_map_reState_all p.polarity p.files

set_option maxRecDepth 1000000 in
set_option maxHeartbeats 4000000 in
/-- C1 witness: the canonical 192-byte two-file volume `wdataC1` parses,
is canonically aligned, reassembles, and the reassembled image reparses
structurally equal. -/
theorem roundtrip_amended_witness :
    parseFV ((assembleFVFull (pvOk (parseFV wdataC1))).getD []) ≠ none ∧
    structEq (pvOk (parseFV wdataC1))
      (pvOk (parseFV ((assembleFVFull (pvOk (parseFV wdataC1))).getD []))) = true :=
  roundtrip_amended wdataC1 (pvOk (parseFV wdataC1))
    ((assembleFVFull (pvOk (parseFV wdataC1))).getD [])
    (by decide) (by decide) (by decide) (by decide) (by decide)

/-- C8 witness: for children `[5, 6]` and `[7]` the concatenation is
`[5, 6, 0, 0, 7]`: the second child sits at offset 4, the child slices
match, and the hole byte at index 2 is zero. -/
theorem sectionConcat_c8_witness :
    (sectionOffsets 0 [[5, 6], [7]]).getD 1 0 % 4 = 0 ∧
    ((sectionConcat 0 [[5, 6], [7]]).drop ((sectionOffsets 0 [[5, 6], [7]]).getD 1 0)).take
      (([[5, 6], [7]] : List (List Nat)).getD 1 []).length =
      ([[5, 6], [7]] : List (List Nat)).getD 1 [] ∧
    (sectionConcat 0 [[5, 6], [7]]).getD 2 1 = 0 :=
  ⟨(sectionConcat_c8 [[5, 6], [7]]).1 1 (by decide),
   (sectionConcat_c8 [[5, 6], [7]]).2.1 1 (by decide),
   (sectionConcat_c8 [[5, 6], [7]]).2.2 2 (by decide) (by decide)⟩

end Fiano
